import Mathlib

/-!
Verification of the pypsbuilder phase-diagram topology core
(`pypsbuilder/psclasses.py`) against its natural-language specification.

The development shallowly embeds the identity resolver (`getidinv`,
`getiduni`), the registration functions (`add_inv`, `add_uni`), the curve
trimmer (`trim_uni`, the per-line body of `cleanup_data`) and the
field-extraction loop of `create_shapes`.  Python `dict`s (insertion
ordered) are embedded as association lists; Python `set`s of phase names
as `Finset String`; machine floats as exact rationals.  Calls into the
external 2-D geometry library (shapely) are embedded by their exact
mathematical meaning: `LineString.project` is the arclength position of
the first closest point on the polyline, represented exactly as a
(segment index, clamped parameter) pair, compared by an exact decidable
order equivalent to comparison of real arclengths.
-/

namespace PyPS

/-- Symmetric difference of two finite phase sets, as computed by
Python's `set.symmetric_difference` / the expression
`out.difference(poly).union(poly.difference(out))`. -/
def sdiff2 (s t : Finset String) : Finset String := (s \ t) ∪ (t \ s)

/-- The fixed polymorph table from `psclasses.py`:
`polymorphs = [{'sill', 'and'}, {'ky', 'and'}, {'sill', 'ky'}, {'q', 'coe'}, {'diam', 'gph'}]`. -/
def polymorphs : List (Finset String) :=
  [{"sill", "and"}, {"ky", "and"}, {"sill", "ky"}, {"q", "coe"}, {"diam", "gph"}]

/-- Rational planar point (exact embedding of a float coordinate pair). -/
structure QP where
  x : ℚ
  y : ℚ
deriving DecidableEq

/-- Invariant point (`InvPoint`).  Fields not touched by any verified
operation (`cmd`, `variance`, THERMOCALC output payloads) are kept only
where an embedded operation reads or writes them; `results` is opaque:
`some ()` stands for a `TCResultSet` (kept unchanged by registration),
`none` for the default `None`, on which the registration-time
compatibility conversion raises. -/
structure InvPoint where
  id : ℕ := 0
  phases : Finset String
  out : Finset String
  coords : List QP := []
  results : Option Unit := none
  output : String := "User-defined"
  manual : Bool := false
deriving DecidableEq

/-- Univariant line (`UniLine`).  `samples` is the full calculated
sample sequence (`_x`/`_y` zipped); `trimmed` is the derived display
sequence (`x`/`y`); `used` is the Python `slice(start, stop)`. -/
structure UniLine where
  id : ℕ := 0
  phases : Finset String
  out : Finset String
  cmd : String := ""
  variance : ℤ := 0
  samples : List QP := []
  results : Option Unit := none
  output : String := "User-defined"
  manual : Bool := false
  begin_ : ℕ := 0
  end_ : ℕ := 0
  used : ℕ × ℕ := (0, 0)
  trimmed : List QP := []
deriving DecidableEq

/-- Association-list lookup, embedding Python `d[k]` (`None` = `KeyError`). -/
def alookup {κ α : Type} [DecidableEq κ] (l : List (κ × α)) (k : κ) : Option α :=
  match l with
  | [] => none
  | (k', v) :: rest => if k' = k then some v else alookup rest k

/-- Association-list update, embedding Python `d[k] = v`: replaces in
place when the key exists (dicts keep insertion position), appends
otherwise. -/
def dictInsert {κ α : Type} [DecidableEq κ] (l : List (κ × α)) (k : κ) (v : α) :
    List (κ × α) :=
  match l with
  | [] => [(k, v)]
  | (k', v') :: rest => if k' = k then (k, v) :: rest else (k', v') :: dictInsert rest k v

/-- Section state (`SectionBase`): insertion-ordered maps of invariant
points and univariant lines plus the domain ranges. -/
structure Section where
  invpoints : List (ℕ × InvPoint) := []
  unilines : List (ℕ × UniLine) := []
  xrange : ℚ × ℚ := (200, 1000)
  yrange : ℚ × ℚ := (1/10, 20)
deriving DecidableEq

/-- Aspect ratio `(xrange[1]-xrange[0])/(yrange[1]-yrange[0])` used to
scale y-coordinates during geometric operations. -/
def Section.ratio (s : Section) : ℚ :=
  (s.xrange.2 - s.xrange.1) / (s.yrange.2 - s.yrange.1)

/-- Registration of an invariant point (`SectionBase.add_inv`): a manual
point's `results` are cleared and the point is stored under `id` with its
`id` attribute overwritten by the key.  A calculated point's `results`
must already be a result set (`some`); for the default `None` the
2.2.0-compatibility branch evaluates `zip(inv.results, ...)` on `None`,
raising `TypeError` before the maps are touched (`none`). -/
def add_inv (s : Section) (id : ℕ) (inv : InvPoint) : Option Section :=
  if inv.manual then
    some { s with invpoints :=
             dictInsert s.invpoints id { inv with results := none, id := id } }
  else
    match inv.results with
    | none => none
    | some _ =>
        some { s with invpoints := dictInsert s.invpoints id { inv with id := id } }

/-- Registration of a univariant line (`SectionBase.add_uni`): a manual
line's `results` are cleared and the line is stored under `id` with its
`id` attribute overwritten by the key; a calculated line whose `results`
is not a result set raises `TypeError` in the compatibility conversion
before the maps are touched (`none`). -/
def add_uni (s : Section) (id : ℕ) (uni : UniLine) : Option Section :=
  if uni.manual then
    some { s with unilines :=
             dictInsert s.unilines id { uni with results := none, id := id } }
  else
    match uni.results with
    | none => none
    | some _ =>
        some { s with unilines := dictInsert s.unilines id { uni with id := id } }

/-- Construction of an invariant point (`InvPoint.__init__`): the
constructor asserts that the `phases` and `out` keyword arguments are
present (`assert 'phases' in kwargs`, `assert 'out' in kwargs`) and
performs no other validation. -/
def mkInvPoint (phasesArg outArg : Option (Finset String)) (coords : List QP)
    (manual : Bool) : Option InvPoint :=
  match phasesArg, outArg with
  | some p, some o => some { phases := p, out := o, coords := coords, manual := manual }
  | _, _ => none

/-- Construction of a univariant line (`UniLine.__init__`): asserts
presence of `phases` and `out`, sets `used = slice(0, len(_x))` and
copies the samples into the trimmed sequence. -/
def mkUniLine (phasesArg outArg : Option (Finset String)) (samples : List QP)
    (manual : Bool) (b e : ℕ) : Option UniLine :=
  match phasesArg, outArg with
  | some p, some o =>
      some { phases := p, out := o, samples := samples, manual := manual,
             begin_ := b, end_ := e, used := (0, samples.length), trimmed := samples }
  | _, _ => none

/-- Candidate zero-mode variants collected by `getidinv`: the
candidate's own `out` followed by, for every polymorph pair contained in
its assemblage, the symmetric difference of `out` with the pair, when
nonempty. -/
def invOuts (inv : InvPoint) : List (Finset String) :=
  inv.out :: polymorphs.filterMap (fun poly =>
    if poly ⊆ inv.phases then
      (if sdiff2 inv.out poly = ∅ then none else some (sdiff2 inv.out poly))
    else none)

/-- Candidate zero-mode variants collected by `getiduni`: the
candidate's own `out` followed by, for every polymorph pair contained in
its assemblage, the pair minus `out`. -/
def uniOuts (uni : UniLine) : List (Finset String) :=
  uni.out :: polymorphs.filterMap (fun poly =>
    if poly ⊆ uni.phases then some (poly \ uni.out) else none)

/-- Loop of `SectionBase.getidinv` over the stored invariant points:
on the first stored point with identical assemblage and a zero-mode set
among the candidate variants, return `(False, stored id)` and rewrite
the candidate's `out` to the stored one; otherwise return
`(True, max id + 1)`. -/
def getidinvGo (inv : InvPoint) (outs : List (Finset String)) :
    List (ℕ × InvPoint) → ℕ → Bool × ℕ × InvPoint
  | [], ids => (true, ids + 1, inv)
  | (iid, cinv) :: rest, ids =>
      if cinv.phases = inv.phases ∧ cinv.out ∈ outs then
        (false, iid, { inv with out := cinv.out })
      else getidinvGo inv outs rest (max ids iid)

/-- Identity resolution for invariant points (`SectionBase.getidinv`).
The returned point is the candidate with its `out` possibly rewritten in
place to the matching stored zero-mode set. -/
def getidinv (s : Section) (inv : InvPoint) : Bool × ℕ × InvPoint :=
  getidinvGo inv (invOuts inv) s.invpoints 0

/-- Squared Euclidean distance between two points. -/
def sqDist (p q : QP) : ℚ := (p.x - q.x) ^ 2 + (p.y - q.y) ^ 2

/-- Arclength position of a point on a polyline, represented exactly:
the segment index together with the clamped parameter along that
segment.  The real arclength it denotes is the sum of the lengths of
the earlier segments plus `t` times the current segment's length. -/
structure LinePos where
  seg : ℕ
  t : ℚ
deriving DecidableEq, Repr

/-- Well-formed positions carry a clamped parameter (every position
produced by `project` does). -/
def posOk (p : LinePos) : Prop := 0 ≤ p.t ∧ p.t ≤ 1

/-- Squared lengths of the segments of a polyline. -/
def lens2 (pts : List QP) : List ℚ :=
  (pts.zip (pts.drop 1)).map (fun ab => sqDist ab.1 ab.2)

/-- All segments strictly between indices `a` and `b` have zero length. -/
def midZero (L2 : List ℚ) (a b : ℕ) : Prop :=
  ∀ i, a < i → i < b → L2.getD i 0 = 0

instance (L2 : List ℚ) (a b : ℕ) : Decidable (midZero L2 a b) :=
  decidable_of_iff (∀ i < b, a < i → L2.getD i 0 = 0)
    ⟨fun h i h1 h2 => h i h2 h1, fun h i h1 h2 => h i h2 h1⟩

/-- Exact comparison of the real arclengths denoted by two positions on
the same polyline (for clamped parameters): positions on an earlier
segment are never larger; on the same segment the parameters are
compared (a zero-length segment makes them equal); a position on a
later segment is `≤` one on an earlier segment only when every length
contribution separating them vanishes. -/
def posLe (L2 : List ℚ) (p q : LinePos) : Prop :=
  p.seg < q.seg ∨
  (p.seg = q.seg ∧ (L2.getD p.seg 0 = 0 ∨ p.t ≤ q.t)) ∨
  (q.seg < p.seg ∧ (p.t = 0 ∨ L2.getD p.seg 0 = 0) ∧ midZero L2 q.seg p.seg ∧
    (q.t = 1 ∨ L2.getD q.seg 0 = 0))

instance (L2 : List ℚ) (p q : LinePos) : Decidable (posLe L2 p q) := by
  unfold posLe; infer_instance

/-- Projection of point `p` onto the single segment `a b`: the clamped
parameter of the closest point and the squared distance to it (for a
degenerate segment the parameter is `0`). -/
def segProj (a b p : QP) : ℚ × ℚ :=
  let den := sqDist a b
  if den = 0 then (0, sqDist p a)
  else
    let tr := ((p.x - a.x) * (b.x - a.x) + (p.y - a.y) * (b.y - a.y)) / den
    let t := max 0 (min 1 tr)
    (t, sqDist p ⟨a.x + t * (b.x - a.x), a.y + t * (b.y - a.y)⟩)

/-- Embedding of shapely's `LineString.project(Point(p))`: the
arclength position of the closest point of the polyline to `p`, taking
the first (smallest-arclength) segment achieving the minimal distance,
as the library's segment scan with a strict-improvement update does. -/
def project (pts : List QP) (p : QP) : LinePos :=
  match ((pts.zip (pts.drop 1)).map (fun ab => segProj ab.1 ab.2 p)).enum with
  | [] => ⟨0, 0⟩
  | c :: rest =>
      let best := rest.foldl (fun acc x => if x.2.2 < acc.2.2 then x else acc) c
      ⟨best.1, best.2.1⟩

/-- Numpy `np.flatnonzero(pred)[0]` over indices `start ≤ i < start+fuel`. -/
def firstIdxFrom (p : ℕ → Bool) : ℕ → ℕ → Option ℕ
  | _, 0 => none
  | s, f + 1 => if p s then some s else firstIdxFrom p (s + 1) f

/-- First index `i < n` satisfying the predicate. -/
def firstIdx (p : ℕ → Bool) (n : ℕ) : Option ℕ := firstIdxFrom p 0 n

/-- Numpy `np.flatnonzero(pred)[-1]` over indices below the bound. -/
def lastIdxDown (p : ℕ → Bool) : ℕ → Option ℕ
  | 0 => none
  | i + 1 => if p i then some i else lastIdxDown p i

/-- Last index `i < n` satisfying the predicate. -/
def lastIdx (p : ℕ → Bool) (n : ℕ) : Option ℕ := lastIdxDown p n

/-- Scaling of a point by the section's aspect ratio on the y-axis. -/
def scaled (r : ℚ) (p : QP) : QP := ⟨p.x, r * p.y⟩

/-- Projection anchor for one end of a line (`trim_uni` lines 416-425):
the bounding invariant point's coordinate, aspect-scaled, when the end
identifier is positive (failing when the point is missing or does not
hold exactly one coordinate — shapely `Point` rejects coordinate
arrays); the supplied extremal sample otherwise. -/
def trimAnchor (s : Section) (bid : ℕ) (dflt : QP) : Option QP :=
  if bid > 0 then do
    let ip ← alookup s.invpoints bid
    match ip.coords with
    | [c] => some (scaled s.ratio c)
    | _ => none
  else some dflt

/-- Selection of the kept sample range (`trim_uni` lines 438-439):
the Python slice
`slice(np.flatnonzero(vdst >= d1)[0], np.flatnonzero(vdst <= d2)[-1] + 1)`;
`none` embeds the `IndexError` raised on an empty selection. -/
def trimUsed (L2 : List ℚ) (vd : ℕ → LinePos) (n : ℕ) (e1 e2 : LinePos) :
    Option (ℕ × ℕ) := do
  let a ← firstIdx (fun i => decide (posLe L2 e1 (vd i))) n
  let b ← lastIdx (fun i => decide (posLe L2 (vd i) e2)) n
  some (a, b + 1)

/-- Raw coordinate list concatenated for one end (`trim_uni`
lines 442-449): the registered bounding point's coordinates when the
identifier is positive (`KeyError` when missing), nothing otherwise. -/
def boundTrim (s : Section) (bid : ℕ) : Option (List QP) :=
  if bid > 0 then (alookup s.invpoints bid).map (·.coords) else some []

/-- Aspect-scaled coordinate sequence of a line
(`np.array([uni._x, self.ratio * uni._y]).T`). -/
def trimPts (s : Section) (uni : UniLine) : List QP :=
  uni.samples.map (scaled s.ratio)

/-- Arclength positions of the polyline's own vertices
(`vdst = np.array([line.project(Point(*v)) for v in xy])`). -/
def vdst (pts : List QP) : ℕ → LinePos :=
  fun i => project pts (pts.getD i ⟨0, 0⟩)

/-- Begin/end swap step (`trim_uni` lines 434-436): when the begin
projection exceeds the end projection, the projections and the
bounding identifiers are exchanged. -/
def trimSw (L2 : List ℚ) (d1 d2 : LinePos) (b e : ℕ) : LinePos × LinePos × ℕ × ℕ :=
  if posLe L2 d1 d2 then (d1, d2, b, e) else (d2, d1, e, b)

/-- Curve trimming (`SectionBase.trim_uni`).  For a non-manual line:
scale the samples, project each vertex and the two anchors onto the
polyline, swap `begin`/`end` when the begin projection exceeds the end
projection, select the sample range between the projections, and
rebuild the trimmed sequence as begin coordinates + kept samples + end
coordinates.  For a manual line only the concatenation step runs.
`none` embeds a Python exception: a missing key, a bounding point
without exactly one stored coordinate, fewer than two samples (shapely
`LineString` rejects them), or an empty `flatnonzero` selection. -/
def trim_uni (s : Section) (id : ℕ) : Option Section := do
  let uni ← alookup s.unilines id
  if uni.manual then do
    let x1 ← boundTrim s uni.begin_
    let x2 ← boundTrim s uni.end_
    some { s with unilines := dictInsert s.unilines id { uni with trimmed := x1 ++ x2 } }
  else
    if (trimPts s uni).length < 2 then none
    else do
      let p1 ← trimAnchor s uni.begin_ ((trimPts s uni).headD ⟨0, 0⟩)
      let p2 ← trimAnchor s uni.end_ ((trimPts s uni).getLastD ⟨0, 0⟩)
      let sw := trimSw (lens2 (trimPts s uni))
        (project (trimPts s uni) p1) (project (trimPts s uni) p2) uni.begin_ uni.end_
      let u ← trimUsed (lens2 (trimPts s uni)) (vdst (trimPts s uni))
        (trimPts s uni).length sw.1 sw.2.1
      let x1 ← boundTrim s sw.2.2.1
      let x2 ← boundTrim s sw.2.2.2
      let uni' := { uni with
        begin_ := sw.2.2.1, end_ := sw.2.2.2, used := u,
        trimmed := x1 ++ (uni.samples.drop u.1).take (u.2 - u.1) ++ x2 }
      some { s with unilines := dictInsert s.unilines id uni' }

/-- Reset applied by `cleanup_data` to a manual line (lines 361-370):
calculated data cleared, `used` emptied. -/
def manualCleared (uni : UniLine) : UniLine :=
  { uni with cmd := "", variance := 0, samples := [], results := some (),
             output := "User-defined", used := (0, 0), trimmed := [] }

/-- Per-line body of `SectionBase.cleanup_data`: a manual line's
calculated data is cleared and its `used` range emptied; a non-manual
line keeps one extra sample beyond each end of `used` (clamped to the
sequence bounds); then the line is re-trimmed. -/
def cleanup_step (s : Section) (id : ℕ) : Option Section := do
  let uni ← alookup s.unilines id
  let uni' := if uni.manual then manualCleared uni
    else
      let keep0 := uni.used.1 - 1
      let keep1 := min (uni.used.2 + 1) uni.samples.length
      { uni with samples := (uni.samples.drop keep0).take (keep1 - keep0) }
  trim_uni { s with unilines := dictInsert s.unilines id uni' } id

/-- Loop of `SectionBase.getiduni` over the stored univariant lines. -/
def getiduniGo (uni : UniLine) (outs : List (Finset String)) :
    List (ℕ × UniLine) → ℕ → Bool × ℕ × UniLine
  | [], ids => (true, ids + 1, uni)
  | (uid, cuni) :: rest, ids =>
      if cuni.phases = uni.phases ∧ cuni.out ∈ outs then
        (false, uid, { uni with out := cuni.out })
      else getiduniGo uni outs rest (max ids uid)

/-- Identity resolution for univariant lines (`SectionBase.getiduni`). -/
def getiduni (s : Section) (uni : UniLine) : Bool × ℕ × UniLine :=
  getiduniGo uni (uniOuts uni) s.unilines 0

/-- Abstract polygon produced by the external geometry library.  The
operations `create_shapes` applies to polygons (`union`, `buffer`) are
tracked symbolically; `base` tags a polygon emitted by `polygonize`. -/
inductive Poly where
  | base : ℕ → Poly
  | union : Poly → Poly → Poly
  | buffer : Poly → ℚ → Poly
deriving DecidableEq

/-- Structured form of the diagnostic strings appended to the log of
`create_shapes`: `selfIntersect new old` embeds
`'Area defined by unilines <new> is self-intersecting with <old>.'` and
`invalidField ids` embeds `'Area defined by unilines <ids> is not valid field.'`. -/
inductive FieldLog where
  | selfIntersect : List ℕ → List ℕ → FieldLog
  | invalidField : List ℕ → FieldLog
deriving DecidableEq

/-- Mutable state of the face loop of `create_shapes`: the `shapes` and
`unilists` dictionaries (keyed by frozen assemblages) and the log. -/
structure FState where
  shapes : List (Finset String × Poly) := []
  unilists : List (Finset String × List ℕ) := []
  log : List FieldLog := []
deriving DecidableEq

/-- Python `set.intersection(*sets)` over a non-empty argument list. -/
def intersectList : List (Finset String) → Finset String
  | [] => ∅
  | h :: t => t.foldl (fun a b => a ∩ b) h

/-- Lookup of every supporting line (`self.unilines[id] for id in unilist`). -/
def lookupAll (s : Section) (ids : List ℕ) : Option (List UniLine) :=
  ids.mapM (alookup s.unilines)

/-- Per-line validity condition of `create_shapes` (line 507): the
symmetric difference of the face assemblage with the line's assemblage
equals the line's zero-mode set, or is empty, or its union with the
line's zero-mode set is a polymorph pair. -/
def validFace (phases : Finset String) (u : UniLine) : Prop :=
  sdiff2 phases u.phases = u.out ∨ sdiff2 phases u.phases = ∅ ∨
    sdiff2 phases u.phases ∪ u.out ∈ polymorphs

instance (phases : Finset String) (u : UniLine) : Decidable (validFace phases u) := by
  unfold validFace; infer_instance

/-- Python `list(set(a + b))`: the duplicate-free union of the two
supporting-line lists (element order in a Python `set` is unspecified;
membership is what the callers rely on). -/
def listUnion (a b : List ℕ) : List ℕ := (a ++ b).dedup

/-- Body of the face loop of `create_shapes` (lines 501-532) for one
polygon with its supporting-line identifiers.  `none` embeds a Python
exception — in particular `set.intersection(*())` raises `TypeError`
when the face has no supporting line.  Faithfully covers: the validity
check, first storage of a fresh assemblage key, the two
single-supporting-line complement reinterpretations, the
buffered-union merge with its diagnostic, and the invalid-face
diagnostic. -/
def processFace (s : Section) (st : FState) (poly : Poly) (unilist : List ℕ) :
    Option FState :=
  match unilist with
  | [] => none
  | id0 :: _ => do
    let unis ← lookupAll s unilist
    let phases := intersectList (unis.map (·.phases))
    if ∀ u ∈ unis, validFace phases u then
      match alookup st.shapes phases with
      | some oldPoly =>
          if unilist.length = 1 then do
            let u0 ← alookup s.unilines id0
            if u0.out ⊆ phases then
              let ph2 := phases \ u0.out
              some { st with shapes := dictInsert st.shapes ph2 poly,
                             unilists := dictInsert st.unilists ph2 unilist }
            else some st
          else do
            let oldList ← alookup st.unilists phases
            if oldList.length = 1 then do
              let o0 ← alookup s.unilines (oldList.headD 0)
              if o0.out ⊆ phases then
                let ph2 := phases \ o0.out
                some { st with
                  shapes := dictInsert (dictInsert st.shapes phases poly) ph2 poly,
                  unilists := dictInsert (dictInsert st.unilists phases unilist) ph2 oldList }
              else some st
            else
              some { shapes := dictInsert st.shapes phases
                       (Poly.buffer (Poly.union oldPoly poly) (1 / 100000)),
                     unilists := dictInsert st.unilists phases (listUnion oldList unilist),
                     log := st.log ++ [FieldLog.selfIntersect unilist oldList] }
      | none =>
          some { st with shapes := dictInsert st.shapes phases poly,
                         unilists := dictInsert st.unilists phases unilist }
    else
      some { st with log := st.log ++ [FieldLog.invalidField unilist] }

/-- The face loop of `create_shapes` over all polygons extracted by
`polygonize`, each paired with its supporting-line identifier list. -/
def processFaces (s : Section) : FState → List (Poly × List ℕ) → Option FState
  | st, [] => some st
  | st, f :: rest =>
      match processFace s st f.1 f.2 with
      | none => none
      | some st' => processFaces s st' rest

/-- Working set of clipped line pieces built by `create_shapes`
(lines 485-493): each univariant line is clipped against the domain
rectangle by the external geometry library (`clip`), contributing one
entry per resulting piece, tagged with the line's `id` attribute. -/
def mkLns (s : Section) (clip : UniLine → List Poly) : List (ℕ × Poly) :=
  s.unilines.flatMap (fun p => (clip p.2).map (fun seg => (p.2.id, seg)))

/-- Supporting-line identifiers of one face (lines 502-505): the ids of
the working-set pieces related to the polygon by shapely pattern
`'*1*F*****'` (a positive-length stretch of shared boundary), embedded
as the boolean oracle `touch`. -/
def faceUnilist (lns : List (ℕ × Poly)) (touch : Poly → Poly → Bool) (poly : Poly) :
    List ℕ :=
  (lns.filter (fun p => touch p.2 poly)).map Prod.fst

/-- Registration call performed by a builder on a section. -/
inductive RegOp where
  | regInv : ℕ → InvPoint → RegOp
  | regUni : ℕ → UniLine → RegOp

/-- Application of one registration call (`none` when the call raises). -/
def applyOp (s : Section) : RegOp → Option Section
  | .regInv id inv => add_inv s id inv
  | .regUni id uni => add_uni s id uni

/-- Every stored feature's `id` attribute equals the key it is stored
under. -/
def idsConsistent (s : Section) : Prop :=
  (∀ p ∈ s.invpoints, p.2.id = p.1) ∧ (∀ p ∈ s.unilines, p.2.id = p.1)

/-- Largest identifier key of a feature map (`0` when empty), as
accumulated by the resolver loops. -/
def maxKey {α : Type} (l : List (ℕ × α)) : ℕ :=
  l.foldl (fun a p => max a p.1) 0

/-- Coordinates contributed to a trimmed sequence by one end of a line:
the registered bounding point's coordinate array when the identifier is
positive, nothing for the open-end sentinel `0`. -/
def boundCoords (s : Section) (bid : ℕ) : List QP :=
  if bid > 0 then ((alookup s.invpoints bid).map (·.coords)).getD [] else []

/-- Value stored by a succeeding `add_inv s i inv` (named for proof reuse). -/
def regInvStored (inv : InvPoint) (i : ℕ) : InvPoint :=
  { (if inv.manual then { inv with results := none } else inv) with id := i }

/-- Value stored by a succeeding `add_uni s i uni` (named for proof reuse). -/
def regUniStored (uni : UniLine) (i : ℕ) : UniLine :=
  { (if uni.manual then { uni with results := none } else uni) with id := i }

/-- Manual feature with a zero-mode set not contained in its assemblage. -/
def cexInv : InvPoint := { phases := {"a"}, out := {"b"}, manual := true }

/-- Manual line with a zero-mode set not contained in its assemblage. -/
def cexUni : UniLine := { phases := {"a"}, out := {"b"}, manual := true }

/-- Calculated invariant point still carrying the default `results = None`. -/
def rawInv : InvPoint := { phases := {"a", "b"}, out := {"a"} }

/-- Calculated univariant line still carrying the default `results = None`. -/
def rawUni : UniLine := { phases := {"a", "b"}, out := {"a"} }

/-- Invariant point whose zero-mode set is the polymorph pair itself. -/
def storedQCoe : InvPoint := { phases := {"q", "coe", "bi"}, out := {"q", "coe"} }

/-- Polymorph-substituted candidate (`coe` replacing `q`) for `storedQCoe`. -/
def candCoe : InvPoint := { phases := {"q", "coe", "bi"}, out := {"coe"} }

/-- Section holding only `storedQCoe`. -/
def secQCoe : Section := { invpoints := [(1, storedQCoe)] }

/-- Invariant point with `q` (but not `coe`) in its zero-mode set. -/
def storedQBi : InvPoint := { phases := {"q", "coe", "bi", "g"}, out := {"q", "bi"} }

/-- Polymorph-substituted candidate (`coe` replacing `q`) for `storedQBi`. -/
def candCoeBi : InvPoint := { phases := {"q", "coe", "bi", "g"}, out := {"coe", "bi"} }

/-- Section holding only `storedQBi`. -/
def secQBi : Section := { invpoints := [(1, storedQBi)] }

/-- Univariant line with singleton zero-mode set `{ky}`. -/
def storedKy : UniLine := { phases := {"sill", "ky", "g"}, out := {"ky"} }

/-- Polymorph-substituted candidate line (`sill` replacing `ky`). -/
def candSill : UniLine := { phases := {"sill", "ky", "g"}, out := {"sill"} }

/-- Section holding only `storedKy` under key 3. -/
def secKy : Section := { unilines := [(3, storedKy)] }

/-- Plain well-formed invariant point used by resolver witnesses. -/
def plainInv : InvPoint := { phases := {"a", "b"}, out := {"a"}, results := some () }

/-- Plain well-formed univariant line used by resolver witnesses. -/
def plainUni : UniLine := { phases := {"a", "b"}, out := {"a"}, results := some () }

/-- Self-closing calculated line whose begin point projects beyond the
first pass of every vertex, with an open end. -/
def loopLine : UniLine :=
  { phases := {"a"}, out := {"a"},
    samples := [⟨0, 0⟩, ⟨10, 0⟩, ⟨10, 1⟩, ⟨0, 1⟩, ⟨0, 0⟩], begin_ := 5, end_ := 0 }

/-- Section holding `loopLine` and its begin point. -/
def loopSec : Section :=
  { invpoints := [(5, { phases := {"a"}, out := {"a"}, coords := [⟨10, 1/2⟩] })],
    unilines := [(1, loopLine)], xrange := (0, 10), yrange := (0, 1) }

/-- Straight three-sample line bounded on both ends. -/
def simpleLine : UniLine :=
  { phases := {"a"}, out := {"a"}, samples := [⟨0, 0⟩, ⟨1, 0⟩, ⟨2, 0⟩],
    begin_ := 1, end_ := 2 }

/-- Section holding `simpleLine` with its two bounding points on the line. -/
def simpleSec : Section :=
  { invpoints := [(1, { phases := {"a"}, out := {"a"}, coords := [⟨0, 0⟩] }),
                  (2, { phases := {"a"}, out := {"a"}, coords := [⟨2, 0⟩] })],
    unilines := [(1, simpleLine)], xrange := (0, 2), yrange := (0, 1) }

/-- Manual line with both ends open. -/
def manualOpen : UniLine :=
  { phases := {"a"}, out := {"a"}, manual := true, samples := [⟨1, 1⟩],
    used := (0, 1), trimmed := [⟨1, 1⟩] }

/-- Section holding only `manualOpen`. -/
def manualSec : Section := { unilines := [(1, manualOpen)] }

/-- Manual line bound to two registered invariant points. -/
def manualBound : UniLine :=
  { phases := {"a"}, out := {"a"}, manual := true, begin_ := 1, end_ := 2 }

/-- Section holding `manualBound` and its two bounding points. -/
def manualBoundSec : Section :=
  { invpoints := [(1, { phases := {"a"}, out := {"a"}, coords := [⟨0, 0⟩] }),
                  (2, { phases := {"a"}, out := {"a"}, coords := [⟨2, 3⟩] })],
    unilines := [(7, manualBound)] }

/-- Straight three-sample line with an open begin end. -/
def openLine : UniLine :=
  { phases := {"a"}, out := {"a"}, samples := [⟨0, 0⟩, ⟨1, 0⟩, ⟨2, 0⟩],
    begin_ := 0, end_ := 2 }

/-- Section holding `openLine` and its end point. -/
def openSec : Section :=
  { invpoints := [(2, { phases := {"a"}, out := {"a"}, coords := [⟨2, 0⟩] })],
    unilines := [(1, openLine)], xrange := (0, 2), yrange := (0, 1) }

/-- Result of trimming `openLine`. -/
def openTrimmedLine : UniLine :=
  { openLine with
    begin_ := 0, end_ := 2, used := (0, 3),
    trimmed := [⟨0, 0⟩, ⟨1, 0⟩, ⟨2, 0⟩, ⟨2, 0⟩] }

/-- `openSec` after `trim_uni`. -/
def openSecTrimmed : Section := { openSec with unilines := [(1, openTrimmedLine)] }

/-- Result of trimming `simpleLine`. -/
def simpleTrimmedLine : UniLine :=
  { simpleLine with
    begin_ := 1, end_ := 2, used := (0, 3),
    trimmed := [⟨0, 0⟩, ⟨0, 0⟩, ⟨1, 0⟩, ⟨2, 0⟩, ⟨2, 0⟩] }

/-- `simpleSec` after `trim_uni`. -/
def simpleSecTrimmed : Section := { simpleSec with unilines := [(1, simpleTrimmedLine)] }

/-- First line of the duplicate-key face scenario. -/
def lineA : UniLine := { id := 1, phases := {"a", "b", "c"}, out := {"c"} }

/-- Second line of the duplicate-key face scenario. -/
def lineB : UniLine := { id := 2, phases := {"a", "b", "c"}, out := {"c"} }

/-- Third line of the duplicate-key face scenario. -/
def lineC : UniLine := { id := 3, phases := {"a", "b", "d"}, out := {"d"} }

/-- Section with the three lines of the duplicate-key face scenario. -/
def triSec : Section := { unilines := [(1, lineA), (2, lineB), (3, lineC)] }

/-- Extracted faces: two faces supported by line 1 alone, then a valid
face supported by lines 2 and 3. -/
def triFaces : List (Poly × List ℕ) :=
  [(Poly.base 1, [1]), (Poly.base 2, [1]), (Poly.base 3, [2, 3])]

/-- Section with one face whose supporting lines make it invalid. -/
def badSec : Section :=
  { unilines := [(1, { phases := {"a", "b"}, out := {"z"} }),
                 (2, { phases := {"a", "c"}, out := {"c"} })] }

/-- State already holding a multi-line face under key `{a, b}`. -/
def dupState : FState :=
  { shapes := [({"a", "b"}, Poly.base 7)], unilists := [({"a", "b"}, [4, 5])],
    log := [] }

/-- Consistency of the face-loop state with the section: every
assemblage key bound in `shapes` is bound in `unilists`, and every
stored supporting-line identifier resolves in the section. -/
def fstateOk (s : Section) (st : FState) : Prop :=
  (∀ k, (alookup st.shapes k).isSome → (alookup st.unilists k).isSome) ∧
  (∀ e ∈ st.unilists, ∀ id ∈ e.2, (alookup s.unilines id).isSome)

/-!  Helper lemmas about the association-list dictionaries. -/

theorem mem_dictInsert {κ α : Type} [DecidableEq κ] {l : List (κ × α)} {k : κ} {v : α}
    {q : κ × α} (h : q ∈ dictInsert l k v) : q = (k, v) ∨ q ∈ l := by
  induction l with
  | nil => simpa [dictInsert] using h
  | cons p rest ih =>
      obtain ⟨k', v'⟩ := p
      simp only [dictInsert] at h
      split at h
      · rcases List.mem_cons.mp h with h | h
        · exact Or.inl h
        · exact Or.inr (List.mem_cons_of_mem _ h)
      · rcases List.mem_cons.mp h with h | h
        · exact Or.inr (h ▸ List.mem_cons_self _ _)
        · rcases ih h with h' | h'
          · exact Or.inl h'
          · exact Or.inr (List.mem_cons_of_mem _ h')

theorem alookup_dictInsert_self {κ α : Type} [DecidableEq κ] (l : List (κ × α))
    (k : κ) (v : α) : alookup (dictInsert l k v) k = some v := by
  induction l with
  | nil => simp [dictInsert, alookup]
  | cons p rest ih =>
      obtain ⟨k', v'⟩ := p
      by_cases hk : k' = k
      · simp [dictInsert, hk, alookup]
      · simp [dictInsert, hk, alookup, ih]

theorem alookup_dictInsert_ne {κ α : Type} [DecidableEq κ] (l : List (κ × α))
    {k k' : κ} (v : α) (h : k' ≠ k) :
    alookup (dictInsert l k v) k' = alookup l k' := by
  induction l with
  | nil => simp [dictInsert, alookup, if_neg (Ne.symm h)]
  | cons p rest ih =>
      obtain ⟨k0, v0⟩ := p
      by_cases hk : k0 = k
      · subst hk
        simp [dictInsert, alookup, if_neg (Ne.symm h)]
      · simp only [dictInsert, if_neg hk, alookup]
        split <;> simp [ih]

theorem dictInsert_eq_append {κ α : Type} [DecidableEq κ] {l : List (κ × α)} {k : κ}
    (v : α) (h : ∀ p ∈ l, p.1 ≠ k) : dictInsert l k v = l ++ [(k, v)] := by
  induction l with
  | nil => simp [dictInsert]
  | cons p rest ih =>
      obtain ⟨k', v'⟩ := p
      have hne : k' ≠ k := h (k', v') (List.mem_cons_self _ _)
      simp only [dictInsert, if_neg hne, List.cons_append, List.cons.injEq, true_and]
      exact ih fun q hq => h q (List.mem_cons_of_mem _ hq)

/-!  C10: registration keeps identifiers consistent with the keys. -/

theorem add_inv_some {s s' : Section} {i : ℕ} {inv : InvPoint}
    (h : add_inv s i inv = some s') :
    s' = { s with invpoints := dictInsert s.invpoints i (regInvStored inv i) } := by
  cases hm : inv.manual with
  | true =>
      have heq : add_inv s i inv
          = some { s with invpoints := dictInsert s.invpoints i (regInvStored inv i) } := by
        simp [add_inv, regInvStored, hm]
      rw [heq] at h
      exact (Option.some_inj.mp h).symm
  | false =>
      cases hr : inv.results with
      | none => simp [add_inv, hm, hr] at h
      | some r =>
          have heq : add_inv s i inv
              = some { s with invpoints := dictInsert s.invpoints i (regInvStored inv i) } := by
            simp [add_inv, regInvStored, hm, hr]
          rw [heq] at h
          exact (Option.some_inj.mp h).symm

theorem add_uni_some {s s' : Section} {i : ℕ} {uni : UniLine}
    (h : add_uni s i uni = some s') :
    s' = { s with unilines := dictInsert s.unilines i (regUniStored uni i) } := by
  cases hm : uni.manual with
  | true =>
      have heq : add_uni s i uni
          = some { s with unilines := dictInsert s.unilines i (regUniStored uni i) } := by
        simp [add_uni, regUniStored, hm]
      rw [heq] at h
      exact (Option.some_inj.mp h).symm
  | false =>
      cases hr : uni.results with
      | none => simp [add_uni, hm, hr] at h
      | some r =>
          have heq : add_uni s i uni
              = some { s with unilines := dictInsert s.unilines i (regUniStored uni i) } := by
            simp [add_uni, regUniStored, hm, hr]
          rw [heq] at h
          exact (Option.some_inj.mp h).symm

theorem applyOp_consistent {s s' : Section} (op : RegOp) (h : idsConsistent s)
    (hop : applyOp s op = some s') : idsConsistent s' := by
  obtain ⟨hinv, huni⟩ := h
  cases op with
  | regInv id inv =>
      have hs' := add_inv_some hop
      subst hs'
      refine ⟨fun p hp => ?_, fun p hp => huni p hp⟩
      rcases mem_dictInsert hp with h' | h'
      · rw [h']
        rfl
      · exact hinv p h'
  | regUni id uni =>
      have hs' := add_uni_some hop
      subst hs'
      refine ⟨fun p hp => hinv p hp, fun p hp => ?_⟩
      rcases mem_dictInsert hp with h' | h'
      · rw [h']
        rfl
      · exact huni p h'

/-- C10: after any sequence of `add_inv`/`add_uni` calls that completes
without raising, starting from a section whose stored features carry
their keys as `id`s, every stored invariant point and univariant line
still has its `id` attribute equal to the key it is stored under
(`add_inv`/`add_uni` overwrite the stored feature's `id` with the key;
the raising path aborts before any map mutation). -/
theorem C10_registration_ids_consistent (ops : List RegOp) (s s' : Section)
    (h : idsConsistent s) (hrun : ops.foldlM applyOp s = some s') :
    idsConsistent s' := by
  induction ops generalizing s with
  | nil =>
      simp only [List.foldlM_nil, pure, Option.some.injEq] at hrun
      exact hrun ▸ h
  | cons op rest ih =>
      rw [List.foldlM_cons] at hrun
      cases hop : applyOp s op with
      | none =>
          rw [hop] at hrun
          simp at hrun
      | some s1 =>
          rw [hop] at hrun
          simp only [Option.bind_eq_bind, Option.some_bind] at hrun
          exact ih _ (applyOp_consistent op h hop) hrun

/-- Witness: the empty section is consistent and stays so after a
concrete registration sequence that completes. -/
theorem C10_registration_ids_consistent_witness :
    idsConsistent {} ∧
    ∃ s' : Section,
      [RegOp.regInv 4 cexInv, RegOp.regUni 9 cexUni].foldlM applyOp {} = some s' ∧
      idsConsistent s' :=
  have h0 : idsConsistent {} :=
    ⟨fun p hp => absurd hp (List.not_mem_nil p), fun p hp => absurd hp (List.not_mem_nil p)⟩
  have hrun : [RegOp.regInv 4 cexInv, RegOp.regUni 9 cexUni].foldlM applyOp ({} : Section)
      = some { invpoints := [(4, { cexInv with id := 4 })],
               unilines := [(9, { cexUni with id := 9 })] } := rfl
  ⟨h0, _, hrun, C10_registration_ids_consistent _ _ _ h0 hrun⟩

/-!  C2: registration does not reject `out ⊄ phases`. -/

/-- C2 fails on the code: a manual feature whose zero-mode set is not a
subset of its assemblage is accepted by `add_inv`/`add_uni` and entered
into the section's maps (no subset validation exists anywhere on the
registration path). -/
theorem C2_counterexample :
    ¬ cexInv.out ⊆ cexInv.phases ∧ cexInv.manual = true ∧
    add_inv {} 1 cexInv = some { invpoints := [(1, { cexInv with id := 1 })] } ∧
    ¬ cexUni.out ⊆ cexUni.phases ∧ cexUni.manual = true ∧
    add_uni {} 1 cexUni = some { unilines := [(1, { cexUni with id := 1 })] } :=
  ⟨by decide, rfl, rfl, by decide, rfl, rfl⟩

/-- C2 amended: registration performs no subset validation — `add_inv`
and `add_uni` enter any feature that survives the `results`
normalisation into the section under the given key, with its `id`
rewritten and its assemblage and zero-mode set unchanged.  The loud,
immediate rejections on the registration path are the constructors'
assertion that the assemblage and zero-mode arguments are present, and
the `TypeError` raised by the compatibility conversion when a
calculated feature's `results` is not a result set, before the maps
change. -/
theorem C2_registration_unvalidated :
    (∀ (s : Section) (id : ℕ) (inv : InvPoint),
        inv.manual = true ∨ inv.results.isSome = true → ∃ s' v,
        add_inv s id inv = some s' ∧
        alookup s'.invpoints id = some v ∧
        v.phases = inv.phases ∧ v.out = inv.out ∧ v.id = id) ∧
    (∀ (s : Section) (id : ℕ) (uni : UniLine),
        uni.manual = true ∨ uni.results.isSome = true → ∃ s' v,
        add_uni s id uni = some s' ∧
        alookup s'.unilines id = some v ∧
        v.phases = uni.phases ∧ v.out = uni.out ∧ v.id = id) ∧
    (∀ (s : Section) (id : ℕ) (inv : InvPoint),
        inv.manual = false → inv.results = none → add_inv s id inv = none) ∧
    (∀ (s : Section) (id : ℕ) (uni : UniLine),
        uni.manual = false → uni.results = none → add_uni s id uni = none) ∧
    (∀ (po oo : Option (Finset String)) (c : List QP) (m : Bool),
        (mkInvPoint po oo c m).isSome ↔ po.isSome ∧ oo.isSome) ∧
    (∀ (po oo : Option (Finset String)) (sm : List QP) (m : Bool) (b e : ℕ),
        (mkUniLine po oo sm m b e).isSome ↔ po.isSome ∧ oo.isSome) := by
  refine ⟨fun s id inv hc => ?_, fun s id uni hc => ?_,
          fun s id inv hm hr => by simp [add_inv, hm, hr],
          fun s id uni hm hr => by simp [add_uni, hm, hr],
          fun po oo c m => ?_, fun po oo sm m b e => ?_⟩
  · cases hm : inv.manual with
    | true =>
        have heq : add_inv s id inv
            = some { s with
                invpoints := dictInsert s.invpoints id
                  { inv with results := none, id := id } } := by
          simp [add_inv, hm]
        exact ⟨_, _, heq, alookup_dictInsert_self _ _ _, rfl, rfl, rfl⟩
    | false =>
        cases hr : inv.results with
        | none =>
            rw [hm, hr] at hc
            simp at hc
        | some r =>
            have heq : add_inv s id inv
                = some { s with
                    invpoints := dictInsert s.invpoints id { inv with id := id } } := by
              simp [add_inv, hm, hr]
            exact ⟨_, _, heq, alookup_dictInsert_self _ _ _, rfl, rfl, rfl⟩
  · cases hm : uni.manual with
    | true =>
        have heq : add_uni s id uni
            = some { s with
                unilines := dictInsert s.unilines id
                  { uni with results := none, id := id } } := by
          simp [add_uni, hm]
        exact ⟨_, _, heq, alookup_dictInsert_self _ _ _, rfl, rfl, rfl⟩
    | false =>
        cases hr : uni.results with
        | none =>
            rw [hm, hr] at hc
            simp at hc
        | some r =>
            have heq : add_uni s id uni
                = some { s with
                    unilines := dictInsert s.unilines id { uni with id := id } } := by
              simp [add_uni, hm, hr]
            exact ⟨_, _, heq, alookup_dictInsert_self _ _ _, rfl, rfl, rfl⟩
  · cases po <;> cases oo <;> simp [mkInvPoint]
  · cases po <;> cases oo <;> simp [mkUniLine]

/-- Witness: the manual out-not-subset features register concretely and
the default-constructed calculated features hit the raising path. -/
theorem C2_registration_unvalidated_witness :
    ((cexInv.manual = true ∨ cexInv.results.isSome = true) ∧
     ∃ s' v, add_inv {} 2 cexInv = some s' ∧ alookup s'.invpoints 2 = some v ∧
       v.phases = cexInv.phases ∧ v.out = cexInv.out ∧ v.id = 2) ∧
    ((cexUni.manual = true ∨ cexUni.results.isSome = true) ∧
     ∃ s' v, add_uni {} 2 cexUni = some s' ∧ alookup s'.unilines 2 = some v ∧
       v.phases = cexUni.phases ∧ v.out = cexUni.out ∧ v.id = 2) ∧
    (rawInv.manual = false ∧ rawInv.results = none ∧ add_inv {} 2 rawInv = none) ∧
    (rawUni.manual = false ∧ rawUni.results = none ∧ add_uni {} 2 rawUni = none) :=
  ⟨⟨Or.inl rfl, C2_registration_unvalidated.1 {} 2 cexInv (Or.inl rfl)⟩,
   ⟨Or.inl rfl, C2_registration_unvalidated.2.1 {} 2 cexUni (Or.inl rfl)⟩,
   ⟨rfl, rfl, C2_registration_unvalidated.2.2.1 {} 2 rawInv rfl rfl⟩,
   ⟨rfl, rfl, C2_registration_unvalidated.2.2.2.1 {} 2 rawUni rfl rfl⟩⟩

/-!  Resolver loop lemmas. -/

theorem le_foldl_max {α : Type} (l : List (ℕ × α)) (ids : ℕ) :
    ids ≤ l.foldl (fun a q => max a q.1) ids := by
  induction l generalizing ids with
  | nil => exact le_refl _
  | cons p rest ih => exact le_trans (le_max_left _ _) (ih _)

theorem mem_le_foldl_max {α : Type} {l : List (ℕ × α)} {p : ℕ × α} (hp : p ∈ l)
    (ids : ℕ) : p.1 ≤ l.foldl (fun a q => max a q.1) ids := by
  induction l generalizing ids with
  | nil => exact absurd hp (List.not_mem_nil p)
  | cons q rest ih =>
      rcases List.mem_cons.mp hp with h | h
      · subst h
        exact le_trans (le_max_right _ _) (le_foldl_max _ _)
      · exact ih h _

theorem self_mem_invOuts (inv : InvPoint) : inv.out ∈ invOuts inv := by
  unfold invOuts
  exact List.mem_cons_self _ _

theorem self_mem_uniOuts (uni : UniLine) : uni.out ∈ uniOuts uni := by
  unfold uniOuts
  exact List.mem_cons_self _ _

theorem getidinvGo_no_match {inv : InvPoint} {outs : List (Finset String)}
    {l : List (ℕ × InvPoint)} (ids : ℕ)
    (h : ∀ p ∈ l, ¬(p.2.phases = inv.phases ∧ p.2.out ∈ outs)) :
    getidinvGo inv outs l ids = (true, l.foldl (fun a q => max a q.1) ids + 1, inv) := by
  induction l generalizing ids with
  | nil => rfl
  | cons p rest ih =>
      obtain ⟨iid, cinv⟩ := p
      have h0 := h (iid, cinv) (List.mem_cons_self _ _)
      simp only [getidinvGo, if_neg h0]
      exact ih _ fun q hq => h q (List.mem_cons_of_mem _ hq)

theorem getidinvGo_true_elim {inv r : InvPoint} {outs : List (Finset String)}
    {l : List (ℕ × InvPoint)} {ids m : ℕ}
    (h : getidinvGo inv outs l ids = (true, m, r)) :
    (∀ p ∈ l, ¬(p.2.phases = inv.phases ∧ p.2.out ∈ outs)) ∧
    m = l.foldl (fun a q => max a q.1) ids + 1 ∧ r = inv := by
  induction l generalizing ids with
  | nil =>
      simp only [getidinvGo, Prod.mk.injEq, true_and] at h
      exact ⟨fun p hp => absurd hp (List.not_mem_nil p), h.1.symm, h.2.symm⟩
  | cons p rest ih =>
      obtain ⟨iid, cinv⟩ := p
      simp only [getidinvGo] at h
      split at h
      · simp at h
      · next hne =>
          obtain ⟨hrest, hm, hr⟩ := ih h
          refine ⟨fun q hq => ?_, hm, hr⟩
          rcases List.mem_cons.mp hq with h' | h'
          · exact h' ▸ hne
          · exact hrest q h'

theorem getidinvGo_append {inv : InvPoint} {outs : List (Finset String)}
    {l1 : List (ℕ × InvPoint)} (l2 : List (ℕ × InvPoint)) (ids : ℕ)
    (h : ∀ p ∈ l1, ¬(p.2.phases = inv.phases ∧ p.2.out ∈ outs)) :
    getidinvGo inv outs (l1 ++ l2) ids =
      getidinvGo inv outs l2 (l1.foldl (fun a q => max a q.1) ids) := by
  induction l1 generalizing ids with
  | nil => rfl
  | cons p rest ih =>
      obtain ⟨iid, cinv⟩ := p
      have h0 := h (iid, cinv) (List.mem_cons_self _ _)
      simp only [List.cons_append, getidinvGo, if_neg h0]
      exact ih _ fun q hq => h q (List.mem_cons_of_mem _ hq)

theorem getiduniGo_no_match {uni : UniLine} {outs : List (Finset String)}
    {l : List (ℕ × UniLine)} (ids : ℕ)
    (h : ∀ p ∈ l, ¬(p.2.phases = uni.phases ∧ p.2.out ∈ outs)) :
    getiduniGo uni outs l ids = (true, l.foldl (fun a q => max a q.1) ids + 1, uni) := by
  induction l generalizing ids with
  | nil => rfl
  | cons p rest ih =>
      obtain ⟨uid, cuni⟩ := p
      have h0 := h (uid, cuni) (List.mem_cons_self _ _)
      simp only [getiduniGo, if_neg h0]
      exact ih _ fun q hq => h q (List.mem_cons_of_mem _ hq)

theorem getiduniGo_true_elim {uni r : UniLine} {outs : List (Finset String)}
    {l : List (ℕ × UniLine)} {ids m : ℕ}
    (h : getiduniGo uni outs l ids = (true, m, r)) :
    (∀ p ∈ l, ¬(p.2.phases = uni.phases ∧ p.2.out ∈ outs)) ∧
    m = l.foldl (fun a q => max a q.1) ids + 1 ∧ r = uni := by
  induction l generalizing ids with
  | nil =>
      simp only [getiduniGo, Prod.mk.injEq, true_and] at h
      exact ⟨fun p hp => absurd hp (List.not_mem_nil p), h.1.symm, h.2.symm⟩
  | cons p rest ih =>
      obtain ⟨uid, cuni⟩ := p
      simp only [getiduniGo] at h
      split at h
      · simp at h
      · next hne =>
          obtain ⟨hrest, hm, hr⟩ := ih h
          refine ⟨fun q hq => ?_, hm, hr⟩
          rcases List.mem_cons.mp hq with h' | h'
          · exact h' ▸ hne
          · exact hrest q h'

theorem getiduniGo_append {uni : UniLine} {outs : List (Finset String)}
    {l1 : List (ℕ × UniLine)} (l2 : List (ℕ × UniLine)) (ids : ℕ)
    (h : ∀ p ∈ l1, ¬(p.2.phases = uni.phases ∧ p.2.out ∈ outs)) :
    getiduniGo uni outs (l1 ++ l2) ids =
      getiduniGo uni outs l2 (l1.foldl (fun a q => max a q.1) ids) := by
  induction l1 generalizing ids with
  | nil => rfl
  | cons p rest ih =>
      obtain ⟨uid, cuni⟩ := p
      have h0 := h (uid, cuni) (List.mem_cons_self _ _)
      simp only [List.cons_append, getiduniGo, if_neg h0]
      exact ih _ fun q hq => h q (List.mem_cons_of_mem _ hq)

/-!  C4: identity resolution is idempotent. -/

/-- C4: identity resolution is idempotent.  A feature already
registered in the section (the first stored entry carrying its
assemblage) is matched by a candidate with the exact same assemblage
and zero-mode set: `isNew = false`, the stored identifier, candidate
unchanged.  In particular, registering the same feature twice — if
`getidinv` (resp. `getiduni`) answers `(isNew = true, i)` and the
candidate is stored via a completing `add_inv i` (resp. `add_uni i`)
call — makes the second resolution answer `(isNew = false, i)`: the
same identifier both times. -/
theorem C4_resolution_idempotent :
    (∀ (s : Section) (pre post : List (ℕ × InvPoint)) (i : ℕ)
       (stored cand : InvPoint),
        s.invpoints = pre ++ (i, stored) :: post →
        (∀ p ∈ pre, p.2.phases ≠ cand.phases) →
        stored.phases = cand.phases → stored.out = cand.out →
        getidinv s cand = (false, i, cand)) ∧
    (∀ (s : Section) (pre post : List (ℕ × UniLine)) (i : ℕ)
       (stored cand : UniLine),
        s.unilines = pre ++ (i, stored) :: post →
        (∀ p ∈ pre, p.2.phases ≠ cand.phases) →
        stored.phases = cand.phases → stored.out = cand.out →
        getiduni s cand = (false, i, cand)) ∧
    (∀ (s s' : Section) (inv : InvPoint) (i : ℕ) (r : InvPoint),
        getidinv s inv = (true, i, r) → add_inv s i inv = some s' →
        getidinv s' inv = (false, i, inv)) ∧
    (∀ (s s' : Section) (uni : UniLine) (i : ℕ) (r : UniLine),
        getiduni s uni = (true, i, r) → add_uni s i uni = some s' →
        getiduni s' uni = (false, i, uni)) := by
  refine ⟨?_, ?_, ?_, ?_⟩
  · intro s pre post i stored cand hs hpre hph hout
    show getidinvGo cand (invOuts cand) s.invpoints 0 = (false, i, cand)
    rw [hs, getidinvGo_append _ _ (fun p hp => fun hc => hpre p hp hc.1)]
    have hmem : stored.out ∈ invOuts cand := by
      rw [hout]
      exact self_mem_invOuts cand
    simp only [getidinvGo, if_pos (And.intro hph hmem), hout]
    rw [if_pos ⟨hph, self_mem_invOuts cand⟩]
  · intro s pre post i stored cand hs hpre hph hout
    show getiduniGo cand (uniOuts cand) s.unilines 0 = (false, i, cand)
    rw [hs, getiduniGo_append _ _ (fun p hp => fun hc => hpre p hp hc.1)]
    have hmem : stored.out ∈ uniOuts cand := by
      rw [hout]
      exact self_mem_uniOuts cand
    simp only [getiduniGo, if_pos (And.intro hph hmem), hout]
    rw [if_pos ⟨hph, self_mem_uniOuts cand⟩]
  · intro s s' inv i r h hreg
    obtain ⟨hnm, hi, _⟩ := getidinvGo_true_elim h
    have hph : (regInvStored inv i).phases = inv.phases := by
      cases hm : inv.manual <;> simp [regInvStored, hm]
    have hout : (regInvStored inv i).out = inv.out := by
      cases hm : inv.manual <;> simp [regInvStored, hm]
    have hfresh : ∀ p ∈ s.invpoints, p.1 ≠ i := by
      intro p hp
      have := mem_le_foldl_max hp 0
      omega
    have hs' := add_inv_some hreg
    have happ : s'.invpoints = s.invpoints ++ [(i, regInvStored inv i)] := by
      rw [hs']
      exact dictInsert_eq_append _ hfresh
    show getidinvGo inv (invOuts inv) s'.invpoints 0 = (false, i, inv)
    rw [happ, getidinvGo_append _ _ hnm]
    have hmatch : (regInvStored inv i).phases = inv.phases ∧
        (regInvStored inv i).out ∈ invOuts inv := by
      refine ⟨hph, ?_⟩
      rw [hout]
      exact self_mem_invOuts inv
    simp only [getidinvGo, if_pos hmatch, hout]
    rw [if_pos ⟨hph, self_mem_invOuts inv⟩]
  · intro s s' uni i r h hreg
    obtain ⟨hnm, hi, _⟩ := getiduniGo_true_elim h
    have hph : (regUniStored uni i).phases = uni.phases := by
      cases hm : uni.manual <;> simp [regUniStored, hm]
    have hout : (regUniStored uni i).out = uni.out := by
      cases hm : uni.manual <;> simp [regUniStored, hm]
    have hfresh : ∀ p ∈ s.unilines, p.1 ≠ i := by
      intro p hp
      have := mem_le_foldl_max hp 0
      omega
    have hs' := add_uni_some hreg
    have happ : s'.unilines = s.unilines ++ [(i, regUniStored uni i)] := by
      rw [hs']
      exact dictInsert_eq_append _ hfresh
    show getiduniGo uni (uniOuts uni) s'.unilines 0 = (false, i, uni)
    rw [happ, getiduniGo_append _ _ hnm]
    have hmatch : (regUniStored uni i).phases = uni.phases ∧
        (regUniStored uni i).out ∈ uniOuts uni := by
      refine ⟨hph, ?_⟩
      rw [hout]
      exact self_mem_uniOuts uni
    simp only [getiduniGo, if_pos hmatch, hout]
    rw [if_pos ⟨hph, self_mem_uniOuts uni⟩]

/-!  C3: polymorph-substituted candidates resolve to the stored feature. -/

theorem sdiff2_subst {S : Finset String} {a b : String} (ha : a ∈ S) (hb : b ∉ S) :
    sdiff2 (insert b (S.erase a)) {a, b} = S := by
  have hab : a ≠ b := fun h => hb (h ▸ ha)
  ext x
  simp only [sdiff2, Finset.mem_union, Finset.mem_sdiff, Finset.mem_insert,
             Finset.mem_erase, Finset.mem_singleton]
  by_cases hxa : x = a
  · subst hxa
    simp [ha, hab]
  · by_cases hxb : x = b
    · subst hxb
      simp [hb, Ne.symm hab]
    · constructor
      · rintro (⟨h1, _⟩ | ⟨h1, _⟩)
        · rcases h1 with h | ⟨_, h⟩
          · exact absurd h hxb
          · exact h
        · rcases h1 with h | h
          · exact absurd h hxa
          · exact absurd h hxb
      · intro hx
        exact Or.inl ⟨Or.inr ⟨hxa, hx⟩, fun h => h.elim hxa hxb⟩

theorem mem_invOuts_of_pair {inv : InvPoint} {p : Finset String}
    (hp : p ∈ polymorphs) (hsub : p ⊆ inv.phases) (hne : sdiff2 inv.out p ≠ ∅) :
    sdiff2 inv.out p ∈ invOuts inv := by
  unfold invOuts
  refine List.mem_cons_of_mem _ (List.mem_filterMap.mpr ⟨p, hp, ?_⟩)
  rw [if_pos hsub, if_neg hne]

theorem mem_uniOuts_of_pair {uni : UniLine} {p : Finset String}
    (hp : p ∈ polymorphs) (hsub : p ⊆ uni.phases) :
    p \ uni.out ∈ uniOuts uni := by
  unfold uniOuts
  refine List.mem_cons_of_mem _ (List.mem_filterMap.mpr ⟨p, hp, ?_⟩)
  rw [if_pos hsub]

/-- C3 fails on the code as stated: for the polymorph pair `{q, coe}`
contained in the assemblage, a registered invariant point whose
zero-mode set `{q, coe}` contains `q`, and a candidate whose zero-mode
set is the `coe`-for-`q` substituted variant `{coe}`, `getidinv`
answers `isNew = true` with a fresh identifier and does not rewrite the
candidate — because the substitution the resolver compares against is
the symmetric difference with the pair, which moves both polymorphs
when the stored set contains them both. -/
theorem C3_counterexample :
    ({"q", "coe"} : Finset String) ∈ polymorphs ∧
    ({"q", "coe"} : Finset String) ⊆ candCoe.phases ∧
    storedQCoe.phases = candCoe.phases ∧
    "q" ∈ storedQCoe.out ∧
    candCoe.out = insert "coe" (storedQCoe.out.erase "q") ∧
    getidinv secQCoe candCoe = (true, 2, candCoe) := by decide

/-- C3 amended: polymorph-substituted resolution holds with the
restrictions the code imposes — for invariant points the stored
zero-mode set must contain `A` but not `B`; for univariant lines it
must equal `{A}` exactly.  Then resolving the `B`-for-`A` substituted
candidate (identical assemblage, no earlier stored feature with that
assemblage) answers `isNew = false` with the stored identifier and
rewrites the candidate's zero-mode set in place to the stored one. -/
theorem C3_polymorph_resolution :
    (∀ (s : Section) (pre post : List (ℕ × InvPoint)) (i : ℕ)
       (stored cand : InvPoint) (a b : String),
      s.invpoints = pre ++ (i, stored) :: post →
      (∀ p ∈ pre, p.2.phases ≠ cand.phases) →
      stored.phases = cand.phases →
      ({a, b} : Finset String) ∈ polymorphs → ({a, b} : Finset String) ⊆ cand.phases →
      a ∈ stored.out → b ∉ stored.out →
      cand.out = insert b (stored.out.erase a) →
      getidinv s cand = (false, i, { cand with out := stored.out })) ∧
    (∀ (s : Section) (pre post : List (ℕ × UniLine)) (i : ℕ)
       (stored cand : UniLine) (a b : String),
      s.unilines = pre ++ (i, stored) :: post →
      (∀ p ∈ pre, p.2.phases ≠ cand.phases) →
      stored.phases = cand.phases →
      ({a, b} : Finset String) ∈ polymorphs → ({a, b} : Finset String) ⊆ cand.phases →
      stored.out = {a} → cand.out = {b} → a ≠ b →
      getiduni s cand = (false, i, { cand with out := stored.out })) := by
  constructor
  · intro s pre post i stored cand a b hs hpre hph hpm hsub ha hb hcand
    have hsd : sdiff2 cand.out {a, b} = stored.out := by
      rw [hcand]
      exact sdiff2_subst ha hb
    have hmem : stored.out ∈ invOuts cand := by
      rw [← hsd]
      exact mem_invOuts_of_pair hpm hsub (by rw [hsd]; exact Finset.ne_empty_of_mem ha)
    show getidinvGo cand (invOuts cand) s.invpoints 0 = (false, i, { cand with out := stored.out })
    rw [hs, getidinvGo_append _ _ (fun p hp => fun hc => hpre p hp hc.1)]
    simp only [getidinvGo, if_pos (And.intro hph hmem)]
  · intro s pre post i stored cand a b hs hpre hph hpm hsub hsout hcand hab
    have hsd : ({a, b} : Finset String) \ cand.out = stored.out := by
      rw [hcand, hsout]
      ext x
      simp only [Finset.mem_sdiff, Finset.mem_insert, Finset.mem_singleton]
      constructor
      · rintro ⟨h | h, hnb⟩
        · exact h
        · exact absurd h hnb
      · intro h
        exact ⟨Or.inl h, fun hxb => hab (h ▸ hxb ▸ rfl)⟩
    have hmem : stored.out ∈ uniOuts cand := by
      rw [← hsd]
      exact mem_uniOuts_of_pair hpm hsub
    show getiduniGo cand (uniOuts cand) s.unilines 0 = (false, i, { cand with out := stored.out })
    rw [hs, getiduniGo_append _ _ (fun p hp => fun hc => hpre p hp hc.1)]
    simp only [getiduniGo, if_pos (And.intro hph hmem)]

/-- Witness: concrete polymorph-substituted resolutions for an
invariant point (`{q, bi}` matched by candidate `{coe, bi}`) and a
univariant line (`{ky}` matched by candidate `{sill}`). -/
theorem C3_polymorph_resolution_witness :
    getidinv secQBi candCoeBi = (false, 1, { candCoeBi with out := storedQBi.out }) ∧
    getiduni secKy candSill = (false, 3, { candSill with out := storedKy.out }) :=
  ⟨C3_polymorph_resolution.1 secQBi [] [] 1 storedQBi candCoeBi "q" "coe" rfl
      (fun p hp => absurd hp (List.not_mem_nil p)) (by decide) (by decide) (by decide)
      (by decide) (by decide) (by decide),
   C3_polymorph_resolution.2 secKy [] [] 3 storedKy candSill "ky" "sill" rfl
      (fun p hp => absurd hp (List.not_mem_nil p)) (by decide) (by decide) (by decide)
      (by decide) (by decide) (by decide)⟩

/-- Witness: registering a plain feature twice on the empty section. -/
theorem C4_resolution_idempotent_witness :
    getidinv secQBi storedQBi = (false, 1, storedQBi) ∧
    getidinv {} plainInv = (true, 1, plainInv) ∧
    (∃ s', add_inv {} 1 plainInv = some s' ∧
       getidinv s' plainInv = (false, 1, plainInv)) ∧
    getiduni {} plainUni = (true, 1, plainUni) ∧
    (∃ s', add_uni {} 1 plainUni = some s' ∧
       getiduni s' plainUni = (false, 1, plainUni)) :=
  have h1 : getidinv {} plainInv = (true, 1, plainInv) := by decide
  have h2 : getiduni {} plainUni = (true, 1, plainUni) := by decide
  have hr1 : add_inv {} 1 plainInv
      = some { invpoints := [(1, { plainInv with id := 1 })] } := rfl
  have hr2 : add_uni {} 1 plainUni
      = some { unilines := [(1, { plainUni with id := 1 })] } := rfl
  ⟨C4_resolution_idempotent.1 secQBi [] [] 1 storedQBi storedQBi rfl
      (fun p hp => absurd hp (List.not_mem_nil p)) rfl rfl,
   h1, ⟨_, hr1, C4_resolution_idempotent.2.2.1 _ _ _ _ _ h1 hr1⟩,
   h2, ⟨_, hr2, C4_resolution_idempotent.2.2.2 _ _ _ _ _ h2 hr2⟩⟩

/-!  Geometry lemmas: projection, position order, index selection. -/

theorem sqDist_nonneg (p q : QP) : 0 ≤ sqDist p q :=
  add_nonneg (sq_nonneg _) (sq_nonneg _)

theorem sqDist_self (p : QP) : sqDist p p = 0 := by
  simp [sqDist]

theorem segProj_t_nonneg (a b p : QP) : 0 ≤ (segProj a b p).1 := by
  by_cases h : sqDist a b = 0 <;> simp [segProj, h, le_sup_left]

theorem segProj_t_le_one (a b p : QP) : (segProj a b p).1 ≤ 1 := by
  by_cases h : sqDist a b = 0 <;>
    simp [segProj, h, sup_le_iff, inf_le_left, zero_le_one]

theorem segProj_d_nonneg (a b p : QP) : 0 ≤ (segProj a b p).2 := by
  by_cases h : sqDist a b = 0 <;> simp [segProj, h] <;> exact sqDist_nonneg _ _

theorem segProj_self (a b : QP) : segProj a b a = (0, 0) := by
  by_cases h : sqDist a b = 0
  · simp [segProj, h, sqDist_self]
  · have h1 : ((a.x - a.x) * (b.x - a.x) + (a.y - a.y) * (b.y - a.y)) / sqDist a b = 0 := by
      simp
    have h2 : (0 : ℚ) ⊔ 1 ⊓ 0 = 0 := by norm_num
    simp [segProj, h, h1, h2, sqDist]

theorem foldl_pick_mem {α : Type} (f : α → α → α)
    (hf : ∀ acc x, f acc x = acc ∨ f acc x = x) :
    ∀ (l : List α) (c : α), l.foldl f c = c ∨ l.foldl f c ∈ l := by
  intro l
  induction l with
  | nil => exact fun c => Or.inl rfl
  | cons x rest ih =>
      intro c
      rcases ih (f c x) with h | h
      · rcases hf c x with h' | h'
        · exact Or.inl (by rw [List.foldl_cons, h, h'])
        · exact Or.inr (by rw [List.foldl_cons, h, h']; exact List.mem_cons_self _ _)
      · exact Or.inr (List.mem_cons_of_mem _ h)

theorem foldl_pick_keep {α : Type} (d : α → ℚ) (l : List α) (c : α)
    (h : ∀ x ∈ l, ¬ d x < d c) :
    l.foldl (fun acc x => if d x < d acc then x else acc) c = c := by
  induction l with
  | nil => rfl
  | cons x rest ih =>
      rw [List.foldl_cons, if_neg (h x (List.mem_cons_self _ _))]
      exact ih fun y hy => h y (List.mem_cons_of_mem _ hy)

theorem mem_enumFrom_snd {α : Type} {l : List α} :
    ∀ {n : ℕ} {x : ℕ × α}, x ∈ l.enumFrom n → x.2 ∈ l := by
  induction l with
  | nil => intro n x h; simp [List.enumFrom] at h
  | cons a as ih =>
      intro n x h
      simp only [List.enumFrom] at h
      rcases List.mem_cons.mp h with h | h
      · rw [h]
        exact List.mem_cons_self _ _
      · exact List.mem_cons_of_mem _ (ih h)

theorem mem_enum_snd {α : Type} {l : List α} {x : ℕ × α} (h : x ∈ l.enum) :
    x.2 ∈ l :=
  mem_enumFrom_snd h

theorem project_posOk (pts : List QP) (p : QP) : posOk (project pts p) := by
  unfold project
  split
  · exact ⟨le_refl 0, zero_le_one⟩
  · next c rest heq =>
      have hall : ∀ x ∈ c :: rest, 0 ≤ x.2.1 ∧ x.2.1 ≤ 1 := by
        intro x hx
        have hx2 : x.2 ∈ (pts.zip (pts.drop 1)).map (fun ab => segProj ab.1 ab.2 p) := by
          rw [← heq] at hx
          exact mem_enum_snd hx
        obtain ⟨ab, _, hab⟩ := List.mem_map.mp hx2
        rw [← hab]
        exact ⟨segProj_t_nonneg _ _ _, segProj_t_le_one _ _ _⟩
      have hmem := foldl_pick_mem (fun acc x => if x.2.2 < acc.2.2 then x else acc)
        (fun acc x => by by_cases hc : x.2.2 < acc.2.2 <;> simp [hc]) rest c
      rcases hmem with h | h
      · rw [h]
        exact hall c (List.mem_cons_self _ _)
      · exact hall _ (List.mem_cons_of_mem _ h)

theorem project_first_vertex (p0 p1 : QP) (rest : List QP) :
    project (p0 :: p1 :: rest) p0 = ⟨0, 0⟩ := by
  unfold project
  have hzip : (p0 :: p1 :: rest).zip ((p0 :: p1 :: rest).drop 1)
      = (p0, p1) :: (p1 :: rest).zip rest := by
    simp [List.zip]
  rw [hzip]
  simp only [List.map_cons, segProj_self, List.enum_cons]
  have hside : ∀ x ∈ List.enumFrom 1
      (List.map (fun ab => segProj ab.1 ab.2 p0) ((p1 :: rest).zip rest)),
      ¬ x.2.2 < ((0, 0, 0) : ℕ × ℚ × ℚ).2.2 := by
    intro x hx
    have hx2 : x.2 ∈ ((p1 :: rest).zip rest).map (fun ab => segProj ab.1 ab.2 p0) :=
      mem_enumFrom_snd hx
    obtain ⟨ab, _, hab⟩ := List.mem_map.mp hx2
    have h0 : 0 ≤ x.2.2 := by
      rw [← hab]
      exact segProj_d_nonneg _ _ _
    simpa using h0
  have hkeep : List.foldl (fun acc x => if x.2.2 < acc.2.2 then x else acc)
      ((0, 0, 0) : ℕ × ℚ × ℚ)
      (List.enumFrom 1 (List.map (fun ab => segProj ab.1 ab.2 p0) ((p1 :: rest).zip rest)))
      = ((0, 0, 0) : ℕ × ℚ × ℚ) :=
    foldl_pick_keep (fun x : ℕ × ℚ × ℚ => x.2.2) _ _ hside
  rw [hkeep]

theorem firstIdxFrom_eq {p : ℕ → Bool} :
    ∀ {f s a : ℕ}, firstIdxFrom p s f = some a →
      s ≤ a ∧ a < s + f ∧ p a = true ∧ ∀ i, s ≤ i → i < a → p i = false := by
  intro f
  induction f with
  | zero => intro s a h; exact absurd h (by simp [firstIdxFrom])
  | succ f ih =>
      intro s a h
      unfold firstIdxFrom at h
      split at h
      · next hps =>
          obtain rfl : s = a := by simpa using h
          exact ⟨le_refl _, by omega, hps, fun i h1 h2 => absurd (lt_of_le_of_lt h1 h2) (lt_irrefl _)⟩
      · next hps =>
          obtain ⟨h1, h2, h3, h4⟩ := ih h
          refine ⟨by omega, by omega, h3, fun i hi1 hi2 => ?_⟩
          rcases Nat.eq_or_lt_of_le hi1 with he | hlt
          · rw [← he]
            exact Bool.not_eq_true _ ▸ (by simpa using hps)
          · exact h4 i hlt hi2

theorem firstIdx_eq {p : ℕ → Bool} {n a : ℕ} (h : firstIdx p n = some a) :
    a < n ∧ p a = true ∧ ∀ i, i < a → p i = false := by
  obtain ⟨_, h2, h3, h4⟩ := firstIdxFrom_eq h
  exact ⟨by omega, h3, fun i hi => h4 i (Nat.zero_le i) hi⟩

theorem lastIdxDown_eq {p : ℕ → Bool} :
    ∀ {n b : ℕ}, lastIdxDown p n = some b →
      b < n ∧ p b = true ∧ ∀ i, b < i → i < n → p i = false := by
  intro n
  induction n with
  | zero => intro b h; exact absurd h (by simp [lastIdxDown])
  | succ n ih =>
      intro b h
      unfold lastIdxDown at h
      split at h
      · next hpn =>
          obtain rfl : n = b := by simpa using h
          exact ⟨by omega, hpn, fun i h1 h2 => by omega⟩
      · next hpn =>
          obtain ⟨h1, h2, h3⟩ := ih h
          refine ⟨by omega, h2, fun i hi1 hi2 => ?_⟩
          rcases Nat.lt_succ_iff_lt_or_eq.mp hi2 with hlt | he
          · exact h3 i hi1 hlt
          · rw [he]
            exact Bool.not_eq_true _ ▸ (by simpa using hpn)

theorem lastIdx_ge {p : ℕ → Bool} {n b : ℕ} (h : lastIdx p n = some b) :
    ∀ i, i < n → p i = true → i ≤ b := by
  intro i hi hpi
  obtain ⟨h1, h2, h3⟩ := lastIdxDown_eq h
  by_contra hbi
  have := h3 i (by omega) hi
  rw [hpi] at this
  exact Bool.true_eq_false ▸ (by simp at this)

theorem firstIdx_zero {p : ℕ → Bool} {n : ℕ} (hn : 0 < n) (hp : p 0 = true) :
    firstIdx p n = some 0 := by
  unfold firstIdx
  obtain ⟨m, rfl⟩ := Nat.exists_eq_succ_of_ne_zero (Nat.pos_iff_ne_zero.mp hn)
  unfold firstIdxFrom
  rw [if_pos hp]

theorem lastIdxDown_isSome {p : ℕ → Bool} :
    ∀ {n : ℕ}, ∀ i, i < n → p i = true → (lastIdxDown p n).isSome := by
  intro n
  induction n with
  | zero => intro i hi _; omega
  | succ n ih =>
      intro i hi hpi
      unfold lastIdxDown
      split
      · rfl
      · next hpn =>
          rcases Nat.lt_succ_iff_lt_or_eq.mp hi with hlt | he
          · exact ih i hlt hpi
          · rw [he] at hpi
            simp [hpi] at hpn

/-!  Order lemmas for exact arclength positions. -/

theorem midZero_mono {L2 : List ℚ} {a a' b b' : ℕ} (h : midZero L2 a b)
    (ha : a ≤ a') (hb : b' ≤ b) : midZero L2 a' b' :=
  fun i h1 h2 => h i (lt_of_le_of_lt ha h1) (lt_of_lt_of_le h2 hb)

theorem midZero_join {L2 : List ℚ} {a b c : ℕ} (h1 : midZero L2 a b)
    (hb : L2.getD b 0 = 0) (h2 : midZero L2 b c) : midZero L2 a c := by
  intro i hi1 hi2
  rcases lt_trichotomy i b with h | h | h
  · exact h1 i hi1 h
  · exact h ▸ hb
  · exact h2 i h hi2

theorem posLe_refl (L2 : List ℚ) (p : LinePos) : posLe L2 p p :=
  Or.inr (Or.inl ⟨rfl, Or.inr (le_refl _)⟩)

theorem posLe_total (L2 : List ℚ) (p q : LinePos) : posLe L2 p q ∨ posLe L2 q p := by
  rcases lt_trichotomy p.seg q.seg with h | h | h
  · exact Or.inl (Or.inl h)
  · rcases le_total p.t q.t with ht | ht
    · exact Or.inl (Or.inr (Or.inl ⟨h, Or.inr ht⟩))
    · exact Or.inr (Or.inr (Or.inl ⟨h.symm, Or.inr ht⟩))
  · exact Or.inr (Or.inl h)

theorem posLe_zero_left {L2 : List ℚ} {q : LinePos} (hq : posOk q) :
    posLe L2 ⟨0, 0⟩ q := by
  rcases Nat.eq_zero_or_pos q.seg with h | h
  · exact Or.inr (Or.inl ⟨h.symm, Or.inr hq.1⟩)
  · exact Or.inl h

theorem posLe_trans {L2 : List ℚ} {p q r : LinePos} (hp : posOk p) (hq : posOk q)
    (hr : posOk r) (hpq : posLe L2 p q) (hqr : posLe L2 q r) : posLe L2 p r := by
  obtain ⟨hp0, hp1⟩ := hp
  obtain ⟨hq0, hq1⟩ := hq
  obtain ⟨hr0, hr1⟩ := hr
  rcases hpq with hA | ⟨hAe, hAd⟩ | ⟨hAg, hA1, hAm, hA2⟩ <;>
    rcases hqr with hB | ⟨hBe, hBd⟩ | ⟨hBg, hB1, hBm, hB2⟩
  · -- i < j, j < k
    exact Or.inl (lt_trans hA hB)
  · -- i < j, j = k
    exact Or.inl (hBe ▸ hA)
  · -- i < j, k < j
    rcases lt_trichotomy p.seg r.seg with hc | hc | hc
    · exact Or.inl hc
    · refine Or.inr (Or.inl ⟨hc, ?_⟩)
      rcases hB2 with hrt | hL
      · exact Or.inr (hrt ▸ hp1)
      · exact Or.inl (hc ▸ hL)
    · refine Or.inr (Or.inr ⟨hc, Or.inr (hBm p.seg hc hA), ?_, hB2⟩)
      exact midZero_mono hBm (le_refl _) (le_of_lt hA)
  · -- i = j, j < k
    exact Or.inl (hAe ▸ hB)
  · -- i = j, j = k
    refine Or.inr (Or.inl ⟨hAe.trans hBe, ?_⟩)
    rcases hAd with hL | ht1
    · exact Or.inl hL
    · rcases hBd with hL | ht2
      · exact Or.inl (hAe ▸ hL)
      · exact Or.inr (le_trans ht1 ht2)
  · -- i = j, k < j
    refine Or.inr (Or.inr ⟨hAe ▸ hBg, ?_, hAe ▸ hBm, hB2⟩)
    rcases hAd with hL | ht1
    · exact Or.inr hL
    · rcases hB1 with hqt | hL
      · exact Or.inl (le_antisymm (hqt ▸ ht1) hp0)
      · exact Or.inr (hAe ▸ hL)
  · -- j < i, j < k
    rcases lt_trichotomy p.seg r.seg with hc | hc | hc
    · exact Or.inl hc
    · refine Or.inr (Or.inl ⟨hc, ?_⟩)
      rcases hA1 with hpt | hL
      · exact Or.inr (hpt ▸ hr0)
      · exact Or.inl hL
    · refine Or.inr (Or.inr ⟨hc, hA1, midZero_mono hAm (le_of_lt hB) (le_refl _),
        Or.inr (hAm r.seg hB hc)⟩)
  · -- j < i, j = k
    refine Or.inr (Or.inr ⟨hBe ▸ hAg, hA1, hBe ▸ hAm, ?_⟩)
    rcases hBd with hL | ht2
    · exact Or.inr (hBe ▸ hL)
    · rcases hA2 with hqt | hL
      · exact Or.inl (le_antisymm hr1 (hqt ▸ ht2))
      · exact Or.inr (hBe ▸ hL)
  · -- j < i, k < j
    have hLj : L2.getD q.seg 0 = 0 := by
      rcases hA2 with hqt | hL
      · rcases hB1 with hqt0 | hL0
        · exact absurd (hqt.symm.trans hqt0) one_ne_zero
        · exact hL0
      · exact hL
    exact Or.inr (Or.inr ⟨lt_trans hBg hAg, hA1, midZero_join hBm hLj hAm, hB2⟩)

/-!  Dissection of a successful trim. -/

theorem trimUsed_bounds {L2 : List ℚ} {vd : ℕ → LinePos} {n : ℕ} {e1 e2 : LinePos}
    {u : ℕ × ℕ} (hok : ∀ i, posOk (vd i)) (h1 : posOk e1) (h2 : posOk e2)
    (h12 : posLe L2 e1 e2) (h : trimUsed L2 vd n e1 e2 = some u) :
    u.1 ≤ u.2 ∧ u.2 ≤ n := by
  unfold trimUsed at h
  cases ha : firstIdx (fun i => decide (posLe L2 e1 (vd i))) n with
  | none => rw [ha] at h; simp at h
  | some a =>
      rw [ha] at h
      cases hb : lastIdx (fun i => decide (posLe L2 (vd i) e2)) n with
      | none => rw [hb] at h; simp at h
      | some b =>
          rw [hb] at h
          simp only [Option.bind_eq_bind, Option.some_bind, Option.some.injEq] at h
          obtain ⟨ha1, ha2, ha3⟩ := firstIdx_eq ha
          obtain ⟨hb1, hb2, hb3⟩ := lastIdxDown_eq hb
          rw [← h]
          refine ⟨?_, by omega⟩
          rcases Nat.eq_zero_or_pos a with h0 | h0
          · omega
          · have hpa : decide (posLe L2 e1 (vd (a - 1))) = false := ha3 _ (by omega)
            have hnot : ¬ posLe L2 e1 (vd (a - 1)) := by simpa using hpa
            have hle1 : posLe L2 (vd (a - 1)) e1 :=
              (posLe_total L2 e1 (vd (a - 1))).resolve_left hnot
            have hle2 : posLe L2 (vd (a - 1)) e2 :=
              posLe_trans (hok _) h1 h2 hle1 h12
            have := lastIdx_ge hb (a - 1) (by omega) (by simpa using hle2)
            omega

theorem trim_uni_spec {s : Section} {id : ℕ} {uni : UniLine} {s' : Section}
    (hu : alookup s.unilines id = some uni) (hm : uni.manual = false)
    (h : trim_uni s id = some s') :
    ∃ (p1 p2 : QP) (u : ℕ × ℕ) (x1 x2 : List QP),
      2 ≤ (trimPts s uni).length ∧
      trimAnchor s uni.begin_ ((trimPts s uni).headD ⟨0, 0⟩) = some p1 ∧
      trimAnchor s uni.end_ ((trimPts s uni).getLastD ⟨0, 0⟩) = some p2 ∧
      (trimUsed (lens2 (trimPts s uni)) (vdst (trimPts s uni)) (trimPts s uni).length
        (trimSw (lens2 (trimPts s uni)) (project (trimPts s uni) p1)
          (project (trimPts s uni) p2) uni.begin_ uni.end_).1
        (trimSw (lens2 (trimPts s uni)) (project (trimPts s uni) p1)
          (project (trimPts s uni) p2) uni.begin_ uni.end_).2.1 = some u) ∧
      boundTrim s (trimSw (lens2 (trimPts s uni)) (project (trimPts s uni) p1)
        (project (trimPts s uni) p2) uni.begin_ uni.end_).2.2.1 = some x1 ∧
      boundTrim s (trimSw (lens2 (trimPts s uni)) (project (trimPts s uni) p1)
        (project (trimPts s uni) p2) uni.begin_ uni.end_).2.2.2 = some x2 ∧
      s' = { s with unilines := dictInsert s.unilines id { uni with
        begin_ := (trimSw (lens2 (trimPts s uni)) (project (trimPts s uni) p1)
          (project (trimPts s uni) p2) uni.begin_ uni.end_).2.2.1,
        end_ := (trimSw (lens2 (trimPts s uni)) (project (trimPts s uni) p1)
          (project (trimPts s uni) p2) uni.begin_ uni.end_).2.2.2,
        used := u,
        trimmed := x1 ++ (uni.samples.drop u.1).take (u.2 - u.1) ++ x2 } } := by
  unfold trim_uni at h
  rw [hu] at h
  simp only [Option.bind_eq_bind, Option.some_bind] at h
  rw [if_neg (by simp [hm])] at h
  by_cases hlen : (trimPts s uni).length < 2
  · rw [if_pos hlen] at h
    simp at h
  · rw [if_neg hlen] at h
    cases hp1 : trimAnchor s uni.begin_ ((trimPts s uni).headD ⟨0, 0⟩) with
    | none => rw [hp1] at h; simp at h
    | some p1 =>
        rw [hp1] at h
        simp only [Option.bind_eq_bind, Option.some_bind] at h
        cases hp2 : trimAnchor s uni.end_ ((trimPts s uni).getLastD ⟨0, 0⟩) with
        | none => rw [hp2] at h; simp at h
        | some p2 =>
            rw [hp2] at h
            simp only [Option.bind_eq_bind, Option.some_bind] at h
            cases hU : trimUsed (lens2 (trimPts s uni)) (vdst (trimPts s uni))
                (trimPts s uni).length
                (trimSw (lens2 (trimPts s uni)) (project (trimPts s uni) p1)
                  (project (trimPts s uni) p2) uni.begin_ uni.end_).1
                (trimSw (lens2 (trimPts s uni)) (project (trimPts s uni) p1)
                  (project (trimPts s uni) p2) uni.begin_ uni.end_).2.1 with
            | none => rw [hU] at h; simp at h
            | some u =>
                rw [hU] at h
                simp only [Option.bind_eq_bind, Option.some_bind] at h
                cases hx1 : boundTrim s (trimSw (lens2 (trimPts s uni))
                    (project (trimPts s uni) p1) (project (trimPts s uni) p2)
                    uni.begin_ uni.end_).2.2.1 with
                | none => rw [hx1] at h; simp at h
                | some x1 =>
                    rw [hx1] at h
                    simp only [Option.bind_eq_bind, Option.some_bind] at h
                    cases hx2 : boundTrim s (trimSw (lens2 (trimPts s uni))
                        (project (trimPts s uni) p1) (project (trimPts s uni) p2)
                        uni.begin_ uni.end_).2.2.2 with
                    | none => rw [hx2] at h; simp at h
                    | some x2 =>
                        rw [hx2] at h
                        simp only [Option.bind_eq_bind, Option.some_bind, Option.some.injEq] at h
                        exact ⟨p1, p2, u, x1, x2, by omega, rfl, rfl, hU, hx1, hx2, h.symm⟩

theorem trim_uni_manual_spec {s : Section} {id : ℕ} {uni : UniLine} {s' : Section}
    (hu : alookup s.unilines id = some uni) (hm : uni.manual = true)
    (h : trim_uni s id = some s') :
    ∃ (x1 x2 : List QP),
      boundTrim s uni.begin_ = some x1 ∧ boundTrim s uni.end_ = some x2 ∧
      s' = { s with
        unilines := dictInsert s.unilines id { uni with trimmed := x1 ++ x2 } } := by
  unfold trim_uni at h
  rw [hu] at h
  simp only [Option.bind_eq_bind, Option.some_bind] at h
  rw [if_pos (by simp [hm])] at h
  cases hx1 : boundTrim s uni.begin_ with
  | none => rw [hx1] at h; simp at h
  | some x1 =>
      rw [hx1] at h
      simp only [Option.bind_eq_bind, Option.some_bind] at h
      cases hx2 : boundTrim s uni.end_ with
      | none => rw [hx2] at h; simp at h
      | some x2 =>
          rw [hx2] at h
          simp only [Option.bind_eq_bind, Option.some_bind, Option.some.injEq] at h
          exact ⟨x1, x2, rfl, rfl, h.symm⟩

theorem trimSw_posLe (L2 : List ℚ) (d1 d2 : LinePos) (b e : ℕ) :
    posLe L2 (trimSw L2 d1 d2 b e).1 (trimSw L2 d1 d2 b e).2.1 := by
  unfold trimSw
  split
  · next h => exact h
  · next h => exact (posLe_total L2 d1 d2).resolve_left h

theorem trimSw_cases (L2 : List ℚ) (d1 d2 : LinePos) (b e : ℕ) :
    trimSw L2 d1 d2 b e = (d1, d2, b, e) ∨ trimSw L2 d1 d2 b e = (d2, d1, e, b) := by
  unfold trimSw
  split
  · exact Or.inl rfl
  · exact Or.inr rfl

theorem trimSw_no_swap {L2 : List ℚ} {d1 d2 : LinePos} (b e : ℕ)
    (h : posLe L2 d1 d2) : trimSw L2 d1 d2 b e = (d1, d2, b, e) := by
  unfold trimSw
  exact if_pos h

theorem trimAnchor_pos {s : Section} {bid : ℕ} {d p : QP} (hb : 0 < bid)
    (h : trimAnchor s bid d = some p) :
    ∃ ip c, alookup s.invpoints bid = some ip ∧ ip.coords = [c] ∧
      p = scaled s.ratio c := by
  unfold trimAnchor at h
  rw [if_pos hb] at h
  cases hip : alookup s.invpoints bid with
  | none => rw [hip] at h; simp at h
  | some ip =>
      rw [hip] at h
      simp only [Option.bind_eq_bind, Option.some_bind] at h
      cases hc : ip.coords with
      | nil => rw [hc] at h; simp at h
      | cons c rest =>
          cases rest with
          | nil =>
              rw [hc] at h
              simp only [Option.some.injEq] at h
              exact ⟨ip, c, rfl, hc, h.symm⟩
          | cons c2 rest2 => rw [hc] at h; simp at h

theorem trimAnchor_zero (s : Section) (d : QP) : trimAnchor s 0 d = some d := by
  unfold trimAnchor
  simp

theorem boundTrim_pos {s : Section} {bid : ℕ} {x : List QP} (hb : 0 < bid)
    (h : boundTrim s bid = some x) :
    (alookup s.invpoints bid).map (·.coords) = some x := by
  unfold boundTrim at h
  rwa [if_pos hb] at h

theorem boundTrim_zero (s : Section) : boundTrim s 0 = some [] := by
  unfold boundTrim
  simp

theorem boundTrim_eq_boundCoords {s : Section} {bid : ℕ} {x : List QP}
    (h : boundTrim s bid = some x) : boundCoords s bid = x := by
  unfold boundTrim at h
  unfold boundCoords
  by_cases hb : bid > 0
  · rw [if_pos hb] at h ⊢
    rw [h]
    rfl
  · rw [if_neg hb] at h ⊢
    simpa using h.symm

theorem boundTrim_total {s : Section} {bid : ℕ}
    (h : bid = 0 ∨ (alookup s.invpoints bid).isSome) :
    boundTrim s bid = some (boundCoords s bid) := by
  rcases h with h | h
  · subst h
    simp [boundTrim, boundCoords]
  · by_cases hb : bid > 0
    · obtain ⟨ip, hip⟩ := Option.isSome_iff_exists.mp h
      simp [boundTrim, boundCoords, hb, hip]
    · simp [boundTrim, boundCoords, hb]

/-!  C6: trim invariants — used range well-formed, bound ends exact. -/

/-- C6: after a completed `trim_uni` on a non-manual line,
`0 ≤ used.start ≤ used.stop ≤ len(samples)` holds, and when both ends
are bound to registered invariant points the trimmed sequence starts
and ends exactly at the two bounding points' coordinates (the two
identifiers possibly exchanged by the projection-order swap). -/
theorem C6_trim_invariants (s : Section) (id : ℕ) (uni : UniLine)
    (s' : Section) (u' : UniLine)
    (hu : alookup s.unilines id = some uni) (hm : uni.manual = false)
    (ht : trim_uni s id = some s') (hu' : alookup s'.unilines id = some u') :
    (u'.used.1 ≤ u'.used.2 ∧ u'.used.2 ≤ uni.samples.length) ∧
    (0 < uni.begin_ → 0 < uni.end_ →
      ∃ c1 c2 : QP,
        (alookup s.invpoints u'.begin_).map (·.coords) = some [c1] ∧
        (alookup s.invpoints u'.end_).map (·.coords) = some [c2] ∧
        u'.trimmed.head? = some c1 ∧ u'.trimmed.getLast? = some c2 ∧
        ((u'.begin_ = uni.begin_ ∧ u'.end_ = uni.end_) ∨
         (u'.begin_ = uni.end_ ∧ u'.end_ = uni.begin_))) := by
  obtain ⟨p1, p2, u, x1, x2, hlen, hp1, hp2, hU, hx1, hx2, hs'⟩ := trim_uni_spec hu hm ht
  have hu'' : { uni with
      begin_ := (trimSw (lens2 (trimPts s uni)) (project (trimPts s uni) p1)
        (project (trimPts s uni) p2) uni.begin_ uni.end_).2.2.1,
      end_ := (trimSw (lens2 (trimPts s uni)) (project (trimPts s uni) p1)
        (project (trimPts s uni) p2) uni.begin_ uni.end_).2.2.2,
      used := u,
      trimmed := x1 ++ (uni.samples.drop u.1).take (u.2 - u.1) ++ x2 } = u' := by
    rw [hs'] at hu'
    simp only [alookup_dictInsert_self, Option.some.injEq] at hu'
    exact hu'
  have hok : ∀ i, posOk (vdst (trimPts s uni) i) := fun i => project_posOk _ _
  have h12 := trimSw_posLe (lens2 (trimPts s uni)) (project (trimPts s uni) p1)
    (project (trimPts s uni) p2) uni.begin_ uni.end_
  have hswok : posOk (trimSw (lens2 (trimPts s uni)) (project (trimPts s uni) p1)
      (project (trimPts s uni) p2) uni.begin_ uni.end_).1 ∧
      posOk (trimSw (lens2 (trimPts s uni)) (project (trimPts s uni) p1)
      (project (trimPts s uni) p2) uni.begin_ uni.end_).2.1 := by
    rcases trimSw_cases (lens2 (trimPts s uni)) (project (trimPts s uni) p1)
      (project (trimPts s uni) p2) uni.begin_ uni.end_ with hsw | hsw <;>
      rw [hsw] <;> exact ⟨project_posOk _ _, project_posOk _ _⟩
  have hbounds := trimUsed_bounds hok hswok.1 hswok.2 h12 hU
  constructor
  · have husd : u'.used = u := by rw [← hu'']
    have hlm : (trimPts s uni).length = uni.samples.length := List.length_map _ _
    have hb1 := hbounds.1
    have hb2 := hbounds.2
    rw [husd]
    exact ⟨hb1, by omega⟩
  · intro hbpos hepos
    obtain ⟨ip1, c1, hip1, hc1, _⟩ := trimAnchor_pos hbpos hp1
    obtain ⟨ip2, c2, hip2, hc2, _⟩ := trimAnchor_pos hepos hp2
    rcases trimSw_cases (lens2 (trimPts s uni)) (project (trimPts s uni) p1)
      (project (trimPts s uni) p2) uni.begin_ uni.end_ with hsw | hsw
    · rw [hsw] at hx1 hx2 hu''
      have hx1' : x1 = [c1] := by
        have := boundTrim_pos hbpos hx1
        rw [hip1] at this
        simp only [Option.map_some', Option.some.injEq] at this
        rw [← this, hc1]
      have hx2' : x2 = [c2] := by
        have := boundTrim_pos hepos hx2
        rw [hip2] at this
        simp only [Option.map_some', Option.some.injEq] at this
        rw [← this, hc2]
      have hbeq : u'.begin_ = uni.begin_ := by rw [← hu'']
      have heeq : u'.end_ = uni.end_ := by rw [← hu'']
      have htr : u'.trimmed = x1 ++ (uni.samples.drop u.1).take (u.2 - u.1) ++ x2 := by
        rw [← hu'']
      refine ⟨c1, c2, ?_, ?_, ?_, ?_, Or.inl ⟨hbeq, heeq⟩⟩
      · rw [hbeq, hip1]
        simp [hc1]
      · rw [heeq, hip2]
        simp [hc2]
      · rw [htr, hx1']
        simp
      · rw [htr, hx2']
        exact List.getLast?_concat _
    · rw [hsw] at hx1 hx2 hu''
      have hx1' : x1 = [c2] := by
        have := boundTrim_pos hepos hx1
        rw [hip2] at this
        simp only [Option.map_some', Option.some.injEq] at this
        rw [← this, hc2]
      have hx2' : x2 = [c1] := by
        have := boundTrim_pos hbpos hx2
        rw [hip1] at this
        simp only [Option.map_some', Option.some.injEq] at this
        rw [← this, hc1]
      have hbeq : u'.begin_ = uni.end_ := by rw [← hu'']
      have heeq : u'.end_ = uni.begin_ := by rw [← hu'']
      have htr : u'.trimmed = x1 ++ (uni.samples.drop u.1).take (u.2 - u.1) ++ x2 := by
        rw [← hu'']
      refine ⟨c2, c1, ?_, ?_, ?_, ?_, Or.inr ⟨hbeq, heeq⟩⟩
      · rw [hbeq, hip2]
        simp [hc2]
      · rw [heeq, hip1]
        simp [hc1]
      · rw [htr, hx1']
        simp
      · rw [htr, hx2']
        exact List.getLast?_concat _

/-!  C5: identifier sentinel and open-end handling. -/

/-- C5 fails on the code as stated: for the self-closing `loopLine`
whose end identifier is the open sentinel `0`, the begin-side
projection exceeds the end-side projection, so the swap step moves the
sentinel to the begin slot and the bounding point's coordinate
`(10, 1/2)` IS appended to the trimmed sequence — the claim says an
end with identifier `0` never receives an appended coordinate. -/
theorem C5_counterexample :
    loopLine.end_ = 0 ∧
    ((trim_uni loopSec 1).bind (fun s => alookup s.unilines 1)).map
        (fun u => (u.begin_, u.end_, u.trimmed)) =
      some (0, 5, loopLine.samples ++ [⟨10, 1/2⟩]) := by with_unfolding_all decide

/-- C5 amended: (1)-(2) when no registered feature matches, the
resolvers answer `isNew = true` with identifier `max existing key + 1`
(`1` on an empty map), which is never `0`; (3) a line whose begin
identifier is the sentinel `0` is anchored at its own first sample,
never swapped, keeps `used.start = 0` and `begin = 0`; (4) the trimmed
sequence is always begin-coordinates + kept samples + end-coordinates
where the end holding identifier `0` after the possible swap
contributes no coordinate (5). -/
theorem C5_identifier_sentinel :
    (∀ (s : Section) (inv : InvPoint),
      (∀ p ∈ s.invpoints, ¬(p.2.phases = inv.phases ∧ p.2.out ∈ invOuts inv)) →
      getidinv s inv = (true, maxKey s.invpoints + 1, inv) ∧
        1 ≤ maxKey s.invpoints + 1) ∧
    (∀ (s : Section) (uni : UniLine),
      (∀ p ∈ s.unilines, ¬(p.2.phases = uni.phases ∧ p.2.out ∈ uniOuts uni)) →
      getiduni s uni = (true, maxKey s.unilines + 1, uni) ∧
        1 ≤ maxKey s.unilines + 1) ∧
    (∀ (s : Section) (id : ℕ) (uni : UniLine) (s' : Section) (u' : UniLine),
      alookup s.unilines id = some uni → uni.manual = false → uni.begin_ = 0 →
      trim_uni s id = some s' → alookup s'.unilines id = some u' →
      u'.begin_ = 0 ∧ u'.used.1 = 0) ∧
    (∀ (s : Section) (id : ℕ) (uni : UniLine) (s' : Section) (u' : UniLine),
      alookup s.unilines id = some uni → uni.manual = false →
      trim_uni s id = some s' → alookup s'.unilines id = some u' →
      u'.trimmed = boundCoords s u'.begin_ ++
        (uni.samples.drop u'.used.1).take (u'.used.2 - u'.used.1) ++
        boundCoords s u'.end_) ∧
    (∀ s : Section, boundCoords s 0 = []) := by
  refine ⟨?_, ?_, ?_, ?_, fun s => rfl⟩
  · intro s inv h
    exact ⟨getidinvGo_no_match 0 h, Nat.succ_le_succ (Nat.zero_le _)⟩
  · intro s uni h
    exact ⟨getiduniGo_no_match 0 h, Nat.succ_le_succ (Nat.zero_le _)⟩
  · intro s id uni s' u' hu hm hb0 ht hu'
    obtain ⟨p1, p2, u, x1, x2, hlen, hp1, hp2, hU, hx1, hx2, hs'⟩ := trim_uni_spec hu hm ht
    have hu'' : { uni with
        begin_ := (trimSw (lens2 (trimPts s uni)) (project (trimPts s uni) p1)
          (project (trimPts s uni) p2) uni.begin_ uni.end_).2.2.1,
        end_ := (trimSw (lens2 (trimPts s uni)) (project (trimPts s uni) p1)
          (project (trimPts s uni) p2) uni.begin_ uni.end_).2.2.2,
        used := u,
        trimmed := x1 ++ (uni.samples.drop u.1).take (u.2 - u.1) ++ x2 } = u' := by
      rw [hs'] at hu'
      simp only [alookup_dictInsert_self, Option.some.injEq] at hu'
      exact hu'
    rw [hb0] at hp1
    rw [trimAnchor_zero] at hp1
    simp only [Option.some.injEq] at hp1
    obtain ⟨q0, q1, rest, hpts⟩ : ∃ q0 q1 rest, trimPts s uni = q0 :: q1 :: rest := by
      cases hq : trimPts s uni with
      | nil => rw [hq] at hlen; simp at hlen
      | cons q0 t =>
          cases t with
          | nil => rw [hq] at hlen; simp at hlen
          | cons q1 rest => exact ⟨q0, q1, rest, rfl⟩
    have hd1 : project (trimPts s uni) p1 = ⟨0, 0⟩ := by
      rw [← hp1, hpts]
      simp only [List.headD_cons]
      exact project_first_vertex _ _ _
    have hnoswap : trimSw (lens2 (trimPts s uni)) (project (trimPts s uni) p1)
        (project (trimPts s uni) p2) uni.begin_ uni.end_ =
        (⟨0, 0⟩, project (trimPts s uni) p2, uni.begin_, uni.end_) := by
      rw [hd1]
      exact trimSw_no_swap _ _ (posLe_zero_left (project_posOk _ _))
    constructor
    · have hbeq : u'.begin_ = uni.begin_ := by rw [← hu'', hnoswap]
      rw [hbeq, hb0]
    · have husd : u'.used = u := by rw [← hu'']
      rw [hnoswap] at hU
      unfold trimUsed at hU
      have hfi : firstIdx (fun i => decide (posLe (lens2 (trimPts s uni))
          (⟨0, 0⟩ : LinePos) (vdst (trimPts s uni) i))) (trimPts s uni).length
          = some 0 := by
        apply firstIdx_zero (by omega)
        simp only [decide_eq_true_eq]
        exact posLe_zero_left (project_posOk _ _)
      rw [show ((⟨0, 0⟩, project (trimPts s uni) p2, uni.begin_, uni.end_) :
            LinePos × LinePos × ℕ × ℕ).1 = ⟨0, 0⟩ from rfl,
          show ((⟨0, 0⟩, project (trimPts s uni) p2, uni.begin_, uni.end_) :
            LinePos × LinePos × ℕ × ℕ).2.1 = project (trimPts s uni) p2 from rfl,
          hfi] at hU
      simp only [Option.bind_eq_bind, Option.some_bind] at hU
      cases hlb : lastIdx (fun i => decide (posLe (lens2 (trimPts s uni))
          (vdst (trimPts s uni) i) (project (trimPts s uni) p2)))
          (trimPts s uni).length with
      | none => rw [hlb] at hU; simp at hU
      | some b =>
          rw [hlb] at hU
          simp only [Option.bind_eq_bind, Option.some_bind, Option.some.injEq] at hU
          rw [husd, ← hU]
  · intro s id uni s' u' hu hm ht hu'
    obtain ⟨p1, p2, u, x1, x2, hlen, hp1, hp2, hU, hx1, hx2, hs'⟩ := trim_uni_spec hu hm ht
    have hu'' : { uni with
        begin_ := (trimSw (lens2 (trimPts s uni)) (project (trimPts s uni) p1)
          (project (trimPts s uni) p2) uni.begin_ uni.end_).2.2.1,
        end_ := (trimSw (lens2 (trimPts s uni)) (project (trimPts s uni) p1)
          (project (trimPts s uni) p2) uni.begin_ uni.end_).2.2.2,
        used := u,
        trimmed := x1 ++ (uni.samples.drop u.1).take (u.2 - u.1) ++ x2 } = u' := by
      rw [hs'] at hu'
      simp only [alookup_dictInsert_self, Option.some.injEq] at hu'
      exact hu'
    have husd : u'.used = u := by rw [← hu'']
    have hbeq : u'.begin_ = (trimSw (lens2 (trimPts s uni)) (project (trimPts s uni) p1)
        (project (trimPts s uni) p2) uni.begin_ uni.end_).2.2.1 := by rw [← hu'']
    have heeq : u'.end_ = (trimSw (lens2 (trimPts s uni)) (project (trimPts s uni) p1)
        (project (trimPts s uni) p2) uni.begin_ uni.end_).2.2.2 := by rw [← hu'']
    have htr : u'.trimmed = x1 ++ (uni.samples.drop u.1).take (u.2 - u.1) ++ x2 := by
      rw [← hu'']
    rw [htr, husd, hbeq, heeq, boundTrim_eq_boundCoords hx1, boundTrim_eq_boundCoords hx2]

/-- Witness: fresh-identifier resolution on the empty section and the
open-begin trim of `openLine` (begin stays `0`, first sample used, no
prepended coordinate). -/
theorem C5_identifier_sentinel_witness :
    (getidinv {} plainInv = (true, 1, plainInv) ∧ (1 : ℕ) ≤ 1) ∧
    (getiduni {} plainUni = (true, 1, plainUni) ∧ (1 : ℕ) ≤ 1) ∧
    (openTrimmedLine.begin_ = 0 ∧ openTrimmedLine.used.1 = 0) ∧
    openTrimmedLine.trimmed = boundCoords openSec openTrimmedLine.begin_ ++
      (openLine.samples.drop openTrimmedLine.used.1).take
        (openTrimmedLine.used.2 - openTrimmedLine.used.1) ++
      boundCoords openSec openTrimmedLine.end_ :=
  ⟨C5_identifier_sentinel.1 {} plainInv (fun p hp => absurd hp (List.not_mem_nil p)),
   C5_identifier_sentinel.2.1 {} plainUni (fun p hp => absurd hp (List.not_mem_nil p)),
   C5_identifier_sentinel.2.2.1 openSec 1 openLine openSecTrimmed openTrimmedLine
     (by with_unfolding_all decide) (by decide) (by decide)
     (by with_unfolding_all decide) (by with_unfolding_all decide),
   C5_identifier_sentinel.2.2.2.1 openSec 1 openLine openSecTrimmed openTrimmedLine
     (by with_unfolding_all decide) (by decide)
     (by with_unfolding_all decide) (by with_unfolding_all decide)⟩

/-- Witness: the bounded straight line `simpleLine` trims to a
well-formed range with its bounding coordinates at both ends. -/
theorem C6_trim_invariants_witness :
    (simpleTrimmedLine.used.1 ≤ simpleTrimmedLine.used.2 ∧
      simpleTrimmedLine.used.2 ≤ simpleLine.samples.length) ∧
    (0 < simpleLine.begin_ → 0 < simpleLine.end_ →
      ∃ c1 c2 : QP,
        (alookup simpleSec.invpoints simpleTrimmedLine.begin_).map (·.coords)
          = some [c1] ∧
        (alookup simpleSec.invpoints simpleTrimmedLine.end_).map (·.coords)
          = some [c2] ∧
        simpleTrimmedLine.trimmed.head? = some c1 ∧
        simpleTrimmedLine.trimmed.getLast? = some c2 ∧
        ((simpleTrimmedLine.begin_ = simpleLine.begin_ ∧
          simpleTrimmedLine.end_ = simpleLine.end_) ∨
         (simpleTrimmedLine.begin_ = simpleLine.end_ ∧
          simpleTrimmedLine.end_ = simpleLine.begin_))) :=
  C6_trim_invariants simpleSec 1 simpleLine simpleSecTrimmed simpleTrimmedLine
    (by with_unfolding_all decide) (by decide) (by with_unfolding_all decide)
    (by with_unfolding_all decide)

/-!  C7: manual lines after the cleanup pass. -/

/-- C7 fails on the code as stated: a manual line with both ends open
comes out of the cleanup-and-trim pass with an EMPTY trimmed sequence
(`np.hstack` of three empties), not the single point the claim
promises. -/
theorem C7_counterexample :
    manualOpen.manual = true ∧ manualOpen.begin_ = 0 ∧ manualOpen.end_ = 0 ∧
    ((cleanup_step manualSec 1).bind (fun s => alookup s.unilines 1)).map
        (fun u => (u.used, u.trimmed)) = some ((0, 0), ([] : List QP)) := by
  with_unfolding_all decide

/-- C7 amended: for every manual univariant line whose bound ends
reference registered invariant points, the per-line cleanup pass sets
`used` to the empty range `(0, 0)` and `trim_uni` rebuilds the trimmed
sequence as exactly the bounding-point coordinates — both ends' when
bound, the empty sequence when both ends are open — and the operation
never fails on such degenerate input. -/
theorem C7_manual_cleanup_trim (s : Section) (id : ℕ) (uni : UniLine)
    (hu : alookup s.unilines id = some uni) (hm : uni.manual = true)
    (hb : uni.begin_ = 0 ∨ (alookup s.invpoints uni.begin_).isSome)
    (he : uni.end_ = 0 ∨ (alookup s.invpoints uni.end_).isSome) :
    ∃ (s' : Section) (u' : UniLine),
      cleanup_step s id = some s' ∧ alookup s'.unilines id = some u' ∧
      u'.used = (0, 0) ∧
      u'.trimmed = boundCoords s uni.begin_ ++ boundCoords s uni.end_ := by
  have hstep : cleanup_step s id =
      trim_uni { s with unilines := dictInsert s.unilines id (manualCleared uni) } id := by
    unfold cleanup_step
    rw [hu]
    simp only [Option.bind_eq_bind, Option.some_bind, hm, if_true]
  rw [hstep]
  have hu2 : alookup ({ s with
      unilines := dictInsert s.unilines id (manualCleared uni) } : Section).unilines id
      = some (manualCleared uni) :=
    alookup_dictInsert_self _ _ _
  have hbt1 : boundTrim { s with unilines := dictInsert s.unilines id (manualCleared uni) }
      uni.begin_ = some (boundCoords s uni.begin_) := boundTrim_total hb
  have hbt2 : boundTrim { s with unilines := dictInsert s.unilines id (manualCleared uni) }
      uni.end_ = some (boundCoords s uni.end_) := boundTrim_total he
  refine ⟨{ s with
      unilines := dictInsert (dictInsert s.unilines id (manualCleared uni)) id
        ({ manualCleared uni with
           trimmed := boundCoords s uni.begin_ ++ boundCoords s uni.end_ }) },
    { manualCleared uni with
      trimmed := boundCoords s uni.begin_ ++ boundCoords s uni.end_ },
    ?_, alookup_dictInsert_self _ _ _, rfl, rfl⟩
  unfold trim_uni
  rw [hu2]
  simp only [Option.bind_eq_bind, Option.some_bind]
  rw [show (manualCleared uni).manual = uni.manual from rfl]
  simp only [hm, if_true]
  rw [show (manualCleared uni).begin_ = uni.begin_ from rfl,
      show (manualCleared uni).end_ = uni.end_ from rfl, hbt1, hbt2]
  simp only [Option.bind_eq_bind, Option.some_bind]

/-- Witness: the manual line `manualBound` with two registered bounding
points cleans up to `used = (0, 0)` and a two-coordinate trimmed
sequence. -/
theorem C7_manual_cleanup_trim_witness :
    ∃ (s' : Section) (u' : UniLine),
      cleanup_step manualBoundSec 7 = some s' ∧
      alookup s'.unilines 7 = some u' ∧
      u'.used = (0, 0) ∧
      u'.trimmed = boundCoords manualBoundSec manualBound.begin_ ++
        boundCoords manualBoundSec manualBound.end_ :=
  C7_manual_cleanup_trim manualBoundSec 7 manualBound (by decide) (by decide)
    (by decide) (by decide)

/-!  C1: face validity check and field-map retention. -/

/-- C1 fails on the code as stated: in the three-face scenario the
third face is valid (every supporting line passes the
symmetric-difference check) and carries a non-empty supporting list,
yet it is silently dropped — its polygon `base 3` is stored under no
key and no diagnostic is appended — because its assemblage key `{a,b}`
was already taken by a complement-reinterpreted face whose single
stored supporting line fails the `out ⊆ phases` test. -/
theorem C1_counterexample :
    processFaces triSec {} triFaces =
      some { shapes := [({"a", "b", "c"}, Poly.base 1), ({"a", "b"}, Poly.base 2)],
             unilists := [({"a", "b", "c"}, [1]), ({"a", "b"}, [1])],
             log := [] } ∧
    lookupAll triSec [2, 3] = some [lineB, lineC] ∧
    intersectList [lineB.phases, lineC.phases] = {"a", "b"} ∧
    (∀ u ∈ [lineB, lineC], validFace ({"a", "b"} : Finset String) u) ∧
    Poly.base 3 ∉
      [(({"a", "b", "c"} : Finset String), Poly.base 1),
       (({"a", "b"} : Finset String), Poly.base 2)].map Prod.snd := by decide

/-- C1 amended: a face with supporting lines is validated against
every supporting line by the symmetric-difference condition; when the
condition fails for some line a diagnostic naming the face's
supporting-line identifiers is appended and the face is dropped
(state otherwise unchanged); when it holds and the face's assemblage
key is not yet bound, the face is kept under that key.  (A valid face
whose key is already bound may instead be re-keyed, merged, or
silently dropped by the duplicate-resolution paths.) -/
theorem C1_face_validity :
    (∀ (s : Section) (st : FState) (poly : Poly) (unilist : List ℕ)
       (unis : List UniLine),
      unilist ≠ [] →
      lookupAll s unilist = some unis →
      (∃ u ∈ unis, ¬ validFace (intersectList (unis.map (·.phases))) u) →
      processFace s st poly unilist =
        some { st with log := st.log ++ [FieldLog.invalidField unilist] }) ∧
    (∀ (s : Section) (st : FState) (poly : Poly) (unilist : List ℕ)
       (unis : List UniLine),
      unilist ≠ [] →
      lookupAll s unilist = some unis →
      (∀ u ∈ unis, validFace (intersectList (unis.map (·.phases))) u) →
      alookup st.shapes (intersectList (unis.map (·.phases))) = none →
      processFace s st poly unilist =
        some { st with
          shapes := dictInsert st.shapes (intersectList (unis.map (·.phases))) poly,
          unilists :=
            dictInsert st.unilists (intersectList (unis.map (·.phases))) unilist }) := by
  constructor
  · intro s st poly unilist unis hne hLA hbad
    cases unilist with
    | nil => exact absurd rfl hne
    | cons id0 rest =>
        simp only [processFace]
        rw [hLA]
        simp only [Option.bind_eq_bind, Option.some_bind]
        rw [if_neg (by
          intro hall
          obtain ⟨u, hu, hnv⟩ := hbad
          exact hnv (hall u hu))]
  · intro s st poly unilist unis hne hLA hvd hfresh
    cases unilist with
    | nil => exact absurd rfl hne
    | cons id0 rest =>
        simp only [processFace]
        rw [hLA]
        simp only [Option.bind_eq_bind, Option.some_bind]
        rw [if_pos hvd, hfresh]

/-- Witness: an invalid face is logged and dropped; a valid fresh face
is stored under its assemblage key. -/
theorem C1_face_validity_witness :
    processFace badSec {} (Poly.base 9) [1, 2] =
      some { shapes := [], unilists := [],
             log := [FieldLog.invalidField [1, 2]] } ∧
    processFace triSec {} (Poly.base 1) [1] =
      some { shapes := [({"a", "b", "c"}, Poly.base 1)],
             unilists := [({"a", "b", "c"}, [1])], log := [] } :=
  ⟨C1_face_validity.1 badSec {} (Poly.base 9) [1, 2]
      [{ phases := {"a", "b"}, out := {"z"} }, { phases := {"a", "c"}, out := {"c"} }]
      (by decide) (by decide) (by decide),
   C1_face_validity.2 triSec {} (Poly.base 1) [1] [lineA]
      (by decide) (by decide) (by decide) (by decide)⟩

/-!  C8: duplicate assemblage keys from multi-line faces are merged. -/

/-- C8: when a valid face supported by more than one line maps to an
assemblage key already holding a face also supported by more than one
line, exactly one polygon is kept for that key — the buffered union of
the two (buffer width `0.00001`) — a diagnostic carrying both
supporting-line lists is appended, and the stored supporting-line list
becomes the union of the two lists. -/
theorem C8_duplicate_merge (s : Section) (st : FState) (poly oldPoly : Poly)
    (unilist oldList : List ℕ) (unis : List UniLine)
    (hne : unilist ≠ [])
    (hLA : lookupAll s unilist = some unis)
    (hvd : ∀ u ∈ unis, validFace (intersectList (unis.map (·.phases))) u)
    (hold : alookup st.shapes (intersectList (unis.map (·.phases))) = some oldPoly)
    (holdL : alookup st.unilists (intersectList (unis.map (·.phases))) = some oldList)
    (hlen : unilist.length ≠ 1) (holdLen : oldList.length ≠ 1) :
    processFace s st poly unilist =
      some { shapes := dictInsert st.shapes (intersectList (unis.map (·.phases)))
               (Poly.buffer (Poly.union oldPoly poly) (1 / 100000)),
             unilists := dictInsert st.unilists (intersectList (unis.map (·.phases)))
               (listUnion oldList unilist),
             log := st.log ++ [FieldLog.selfIntersect unilist oldList] } ∧
    alookup (dictInsert st.shapes (intersectList (unis.map (·.phases)))
        (Poly.buffer (Poly.union oldPoly poly) (1 / 100000)))
      (intersectList (unis.map (·.phases)))
      = some (Poly.buffer (Poly.union oldPoly poly) (1 / 100000)) ∧
    (∀ k, k ∈ listUnion oldList unilist ↔ k ∈ oldList ∨ k ∈ unilist) := by
  refine ⟨?_, alookup_dictInsert_self _ _ _, fun k => by
    simp [listUnion, List.mem_dedup, List.mem_append]⟩
  cases unilist with
  | nil => exact absurd rfl hne
  | cons id0 rest =>
      simp only [processFace]
      rw [hLA]
      simp only [Option.bind_eq_bind, Option.some_bind]
      rw [if_pos hvd, hold]
      dsimp only
      rw [if_neg hlen, holdL]
      simp only [Option.bind_eq_bind, Option.some_bind]
      rw [if_neg holdLen]

/-- Witness: the valid two-line face `[2, 3]` merging into `dupState`'s
existing `{a, b}` entry. -/
theorem C8_duplicate_merge_witness :
    processFace triSec dupState (Poly.base 9) [2, 3] =
      some { shapes := dictInsert dupState.shapes
               (intersectList ([lineB, lineC].map (·.phases)))
               (Poly.buffer (Poly.union (Poly.base 7) (Poly.base 9)) (1 / 100000)),
             unilists := dictInsert dupState.unilists
               (intersectList ([lineB, lineC].map (·.phases)))
               (listUnion [4, 5] [2, 3]),
             log := dupState.log ++ [FieldLog.selfIntersect [2, 3] [4, 5]] } ∧
    alookup (dictInsert dupState.shapes (intersectList ([lineB, lineC].map (·.phases)))
        (Poly.buffer (Poly.union (Poly.base 7) (Poly.base 9)) (1 / 100000)))
      (intersectList ([lineB, lineC].map (·.phases)))
      = some (Poly.buffer (Poly.union (Poly.base 7) (Poly.base 9)) (1 / 100000)) ∧
    (∀ k, k ∈ listUnion [4, 5] [2, 3] ↔ k ∈ [4, 5] ∨ k ∈ [2, 3]) :=
  C8_duplicate_merge triSec dupState (Poly.base 9) (Poly.base 7) [2, 3] [4, 5]
    [lineB, lineC] (by decide) (by decide) (by decide) (by decide) (by decide)
    (by decide) (by decide)

/-!  C9: exception behavior of the face loop. -/

theorem alookup_mem {κ α : Type} [DecidableEq κ] {l : List (κ × α)} {k : κ} {v : α}
    (h : alookup l k = some v) : (k, v) ∈ l := by
  induction l with
  | nil => simp [alookup] at h
  | cons p rest ih =>
      obtain ⟨k', v'⟩ := p
      by_cases hk : k' = k
      · subst hk
        rw [alookup, if_pos rfl] at h
        simp only [Option.some.injEq] at h
        exact h ▸ List.mem_cons_self _ _
      · rw [alookup, if_neg hk] at h
        exact List.mem_cons_of_mem _ (ih h)

theorem alookup_dictInsert_isSome {κ α : Type} [DecidableEq κ] {l : List (κ × α)}
    {k' : κ} (k : κ) (v : α) (h : (alookup l k').isSome) :
    (alookup (dictInsert l k v) k').isSome := by
  by_cases hk : k' = k
  · subst hk
    rw [alookup_dictInsert_self]
    rfl
  · rwa [alookup_dictInsert_ne _ _ hk]

theorem headD_mem_of_length_one {l : List ℕ} (h : l.length = 1) : l.headD 0 ∈ l := by
  cases l with
  | nil => simp at h
  | cons a t => exact List.mem_cons_self _ _

theorem lookupAll_isSome {s : Section} : ∀ {ids : List ℕ},
    (∀ id ∈ ids, (alookup s.unilines id).isSome) → (lookupAll s ids).isSome := by
  intro ids
  induction ids with
  | nil => intro h; rfl
  | cons a t ih =>
      intro h
      obtain ⟨u, hu⟩ := Option.isSome_iff_exists.mp (h a (List.mem_cons_self _ _))
      obtain ⟨us, hus⟩ :=
        Option.isSome_iff_exists.mp (ih fun i hi => h i (List.mem_cons_of_mem _ hi))
      unfold lookupAll at hus ⊢
      rw [List.mapM_cons, hu, hus]
      rfl

theorem fstateOk_insert {s : Section} {st : FState} {phases : Finset String}
    {poly : Poly} {ids : List ℕ} (hok : fstateOk s st)
    (hids : ∀ id ∈ ids, (alookup s.unilines id).isSome) :
    fstateOk s { st with shapes := dictInsert st.shapes phases poly,
                         unilists := dictInsert st.unilists phases ids } := by
  constructor
  · intro k hk
    by_cases hkp : k = phases
    · subst hkp
      rw [alookup_dictInsert_self]
      rfl
    · rw [alookup_dictInsert_ne _ _ hkp] at hk ⊢
      exact hok.1 k hk
  · intro e he id hid
    rcases mem_dictInsert he with he' | he'
    · exact hids id (by rw [he'] at hid; exact hid)
    · exact hok.2 e he' id hid

theorem processFace_total {s : Section} {st : FState} {poly : Poly} {unilist : List ℕ}
    (hok : fstateOk s st) (hne : unilist ≠ [])
    (hids : ∀ id ∈ unilist, (alookup s.unilines id).isSome) :
    ∃ st', processFace s st poly unilist = some st' ∧ fstateOk s st' := by
  cases unilist with
  | nil => exact absurd rfl hne
  | cons id0 rest =>
      obtain ⟨unis, hLA⟩ := Option.isSome_iff_exists.mp (lookupAll_isSome hids)
      simp only [processFace]
      rw [hLA]
      simp only [Option.bind_eq_bind, Option.some_bind]
      by_cases hvd : ∀ u ∈ unis, validFace (intersectList (unis.map (·.phases))) u
      · rw [if_pos hvd]
        cases hsh : alookup st.shapes (intersectList (unis.map (·.phases))) with
        | none => exact ⟨_, rfl, fstateOk_insert hok hids⟩
        | some oldPoly =>
            dsimp only
            by_cases hlen : (id0 :: rest).length = 1
            · rw [if_pos hlen]
              obtain ⟨u0, hu0⟩ := Option.isSome_iff_exists.mp
                (hids id0 (List.mem_cons_self _ _))
              rw [hu0]
              simp only [Option.bind_eq_bind, Option.some_bind]
              by_cases hsub : u0.out ⊆ intersectList (unis.map (·.phases))
              · rw [if_pos hsub]
                exact ⟨_, rfl, fstateOk_insert hok hids⟩
              · rw [if_neg hsub]
                exact ⟨st, rfl, hok⟩
            · rw [if_neg hlen]
              obtain ⟨oldList, holdL⟩ := Option.isSome_iff_exists.mp
                (hok.1 _ (by rw [hsh]; rfl))
              rw [holdL]
              simp only [Option.bind_eq_bind, Option.some_bind]
              have holdIds : ∀ id ∈ oldList, (alookup s.unilines id).isSome :=
                hok.2 _ (alookup_mem holdL)
              by_cases holdLen : oldList.length = 1
              · rw [if_pos holdLen]
                obtain ⟨o0, ho0⟩ := Option.isSome_iff_exists.mp
                  (holdIds _ (headD_mem_of_length_one holdLen))
                rw [ho0]
                simp only [Option.bind_eq_bind, Option.some_bind]
                by_cases hsub : o0.out ⊆ intersectList (unis.map (·.phases))
                · rw [if_pos hsub]
                  refine ⟨_, rfl, ?_⟩
                  exact fstateOk_insert (fstateOk_insert hok hids) holdIds
                · rw [if_neg hsub]
                  exact ⟨st, rfl, hok⟩
              · rw [if_neg holdLen]
                refine ⟨_, rfl, ?_, ?_⟩
                · intro k hk
                  by_cases hkp : k = intersectList (unis.map (·.phases))
                  · subst hkp
                    rw [alookup_dictInsert_self]
                    rfl
                  · rw [alookup_dictInsert_ne _ _ hkp] at hk ⊢
                    exact hok.1 k hk
                · intro e he id hid
                  rcases mem_dictInsert he with he' | he'
                  · rw [he'] at hid
                    have : id ∈ oldList ∨ id ∈ id0 :: rest := by
                      have := hid
                      simp only [listUnion, List.mem_dedup, List.mem_append] at this
                      exact this
                    rcases this with h' | h'
                    · exact holdIds id h'
                    · exact hids id h'
                  · exact hok.2 e he' id hid
      · rw [if_neg hvd]
        exact ⟨_, rfl, hok.1, fun e he id hid => hok.2 e he id hid⟩

/-- C9 fails on the code as stated: for a section with no univariant
lines at all, the working set is empty (for any clipping of the
lines), so the single rectangle face produced by `polygonize` carries
no supporting line, and the face loop raises a `TypeError`
(`set.intersection()` with no arguments) instead of returning a field
map and log. -/
theorem C9_counterexample :
    ({} : Section).unilines = [] ∧
    mkLns {} (fun _ => [Poly.base 0]) = [] ∧
    faceUnilist [] (fun _ _ => true) (Poly.base 0) = [] ∧
    processFaces {} {} [(Poly.base 0, [])] = none := by decide

/-- C9 amended: the face loop of `create_shapes` completes without an
exception — returning a (possibly incomplete) field map plus the
diagnostic log — provided every extracted face has at least one
supporting line whose identifier resolves in the section, starting
from any loop state consistent with the section; a face with no
supporting line (for example any face of a section with no univariant
lines) raises `TypeError` instead. -/
theorem C9_graceful_faces (s : Section) (st : FState)
    (faces : List (Poly × List ℕ)) (hok : fstateOk s st)
    (hfaces : ∀ f ∈ faces, f.2 ≠ [] ∧ ∀ id ∈ f.2, (alookup s.unilines id).isSome) :
    (processFaces s st faces).isSome := by
  induction faces generalizing st with
  | nil => rfl
  | cons f rest ih =>
      obtain ⟨hne, hids⟩ := hfaces f (List.mem_cons_self _ _)
      obtain ⟨st', hst', hok'⟩ := processFace_total hok hne hids
      unfold processFaces
      rw [hst']
      exact ih st' hok' fun g hg => hfaces g (List.mem_cons_of_mem _ hg)

/-- Witness: the three-face run on `triSec` completes. -/
theorem C9_graceful_faces_witness :
    (processFaces triSec {} triFaces).isSome :=
  C9_graceful_faces triSec {} triFaces
    ⟨fun k hk => by simp [alookup] at hk, fun e he => by simp at he⟩
    (by decide)

end PyPS
